import Mathlib

/-!
# skidlang: tokenizer and code generator

A shallow embedding of `src/main.go` (`tokenizeLine`, `Lex`, `isType`, `Compile`).

Conventions of the embedding:

* A Go `string` is a Lean `String`, read as its sequence of Unicode code points
  (`for _, char := range line` visits the runes of the line); texts are taken to be valid UTF-8.
* A Go slice is a `List`; `append(xs, x)` is `xs ++ [x]`.
* An index that is out of range makes the Go program stop with a run-time fault; the
  embedding returns `none` there, and `some` of the result otherwise.
* `map[string]bool` with only `true` values is the duplicate-free list of its keys; the order
  in which `range` visits the keys is not fixed by Go, so the final assembly takes the visiting
  order as an argument.
* `inBracket` is a Go `int`; it counts at most one per character of the line and is a `Nat` here.
-/

namespace Skidlang

/-! ## Data model -/

/-- One parsed line: `type Token struct { Command string; Args []string }`. -/
structure Token where
  Command : String
  Args : List String
deriving DecidableEq

/-! ## Library functions of Go used by the source -/

/-- Go `unicode.IsSpace`: the Latin-1 spaces `\t \n \v \f \r`, space, U+0085, U+00A0 and the
characters of the Unicode `White_Space` property above Latin-1. -/
def isSpace (c : Char) : Bool :=
  let n := c.toNat
  (9 ≤ n && n ≤ 13) || n == 32 || n == 133 || n == 160 || n == 5760 ||
  (8192 ≤ n && n ≤ 8202) || n == 8232 || n == 8233 || n == 8239 || n == 8287 || n == 12288

/-- Go `strings.TrimSpace`: the text without its leading and trailing white space. -/
def TrimSpace (s : String) : String :=
  String.mk ((s.data.dropWhile isSpace).reverse.dropWhile isSpace).reverse

/-- Go `strings.HasPrefix`. -/
def HasPrefix (s pre : String) : Bool :=
  pre.data.isPrefixOf s.data

/-- The pieces of a character sequence between its newline characters. -/
def splitNewline : List Char → List (List Char)
  | [] => [[]]
  | c :: cs =>
    if c = '\n' then [] :: splitNewline cs
    else
      match splitNewline cs with
      | [] => [[c]]
      | l :: ls => (c :: l) :: ls

/-- Go `strings.Split(s, "\n")`: one piece more than there are newlines in `s`. -/
def SplitLines (s : String) : List String :=
  (splitNewline s.data).map String.mk

/-- Go `strings.Join(elems, sep)`. -/
def Join : List String → String → String
  | [], _ => ""
  | [a], _ => a
  | a :: b :: rest, sep => a ++ sep ++ Join (b :: rest) sep

/-! ## Tokenizer -/

/-- The variables of the scanning loop of `tokenizeLine`. `inQuote` is the rune `0` when no
quote is open. -/
structure LineState where
  tokens : List String
  currentToken : String
  inQuote : Char
  inBracket : Nat
  escape : Bool
deriving DecidableEq

/-- The rune `0`, which `tokenizeLine` uses for "no quote open". -/
def noQuote : Char := Char.ofNat 0

/-- The variables of `tokenizeLine` before its loop. -/
def LineState.init : LineState :=
  { tokens := [], currentToken := "", inQuote := noQuote, inBracket := 0, escape := false }

/-- One iteration of the loop `for _, char := range line` of `tokenizeLine`. -/
def scanChar (s : LineState) (char : Char) : LineState :=
  if s.escape then
    { s with currentToken := s.currentToken.push char, escape := false }
  else if char = '\\' then
    { s with escape := true }
  else if char = '\'' ∨ char = '"' then
    let q := if s.inQuote = noQuote then char
             else if s.inQuote = char then noQuote
             else s.inQuote
    { s with inQuote := q, currentToken := s.currentToken.push char }
  else if char = '[' then
    let b := if s.inQuote = noQuote then s.inBracket + 1 else s.inBracket
    { s with inBracket := b, currentToken := s.currentToken.push char }
  else if char = ']' then
    let b := if s.inQuote = noQuote ∧ s.inBracket > 0 then s.inBracket - 1 else s.inBracket
    { s with inBracket := b, currentToken := s.currentToken.push char }
  else if char = ' ' ∨ char = '\t' then
    if s.inQuote = noQuote ∧ s.inBracket = 0 then
      if s.currentToken ≠ "" then
        { s with tokens := s.tokens ++ [s.currentToken], currentToken := "" }
      else s
    else
      { s with currentToken := s.currentToken.push char }
  else
    { s with currentToken := s.currentToken.push char }

/-- The flush after the loop of `tokenizeLine`: a non-empty `currentToken` is the last token. -/
def LineState.finish (s : LineState) : List String :=
  if s.currentToken ≠ "" then s.tokens ++ [s.currentToken] else s.tokens

/-- The function `tokenizeLine` of the source. -/
def tokenizeLine (line : String) : List String :=
  (line.data.foldl scanChar LineState.init).finish

/-- The body of the loop over the lines in `Lex`: the tokens so far, extended by the token of
one line, if that line has one. -/
def lexLine (tokens : List Token) (line : String) : List Token :=
  let line := TrimSpace line
  if line = "" ∨ HasPrefix line "#" then tokens
  else
    match tokenizeLine line with
    | [] => tokens
    | command :: args => tokens ++ [{ Command := command, Args := args }]

/-- The function `Lex` of the source. -/
def Lex (input : String) : List Token :=
  (SplitLines input).foldl lexLine []

/-! ## Code generator -/

/-- The function `isType` of the source. -/
def isType (s : String) : Bool :=
  s = "int" || s = "float64" || s = "string" || s = "bool" || s = "rune" || s = "byte" ||
  s = "[]int" || s = "[]string" || s = "[]float64"

/-- The variables of `Compile` that its loop over the tokens updates. `output` starts with the
three header lines, so the main-body lines are the lines of `output` from index 3 on;
`additionalCode` is the top-level buffer and `currentStruct` the struct context. -/
structure GenState where
  imports : List String
  output : List String
  additionalCode : List String
  currentStruct : String
deriving DecidableEq

/-- The variables of `Compile` before its loop. -/
def GenState.init : GenState :=
  { imports := ["fmt"],
    output := ["package main", "", "import ("],
    additionalCode := [],
    currentStruct := "" }

/-- The main-body lines: what was appended to `output` after its three initial lines. -/
def GenState.mainBody (s : GenState) : List String := s.output.drop 3

/-- The assignment `m[k] = true` on a map whose values are all `true`. -/
def mapSet (m : List String) (k : String) : List String :=
  if k ∈ m then m else m ++ [k]

/-- The scan for the return type in the `func` rule: the first `->` that is not the last
element gives the element after it as return type and cuts the list before the `->`. The
result is the new `funcParts` and `returnType`. -/
def scanArrow : List String → List String × String
  | [] => ([], "")
  | [p] => ([p], "")
  | p :: q :: rest =>
    if p = "->" then ([], q)
    else ((p :: (scanArrow (q :: rest)).1), (scanArrow (q :: rest)).2)

/-- The loop of the `func` rule that builds `params`: consecutive pairs `name type`, an
unpaired last element is left out. -/
def pairParams : List String → List String
  | paramName :: paramType :: rest => (paramName ++ " " ++ paramType) :: pairParams rest
  | _ => []

/-- The rest of the `func` rule once receiver, name and remaining parts are known. -/
def funcHeader (receiver funcName : String) (funcParts : List String) : String :=
  let returnType := (scanArrow funcParts).2
  let funcParts := (scanArrow funcParts).1
  let paramStr := Join (pairParams funcParts) ", "
  let funcDef :=
    if receiver ≠ "" then "func " ++ receiver ++ " " ++ funcName ++ "(" ++ paramStr ++ ")"
    else "func " ++ funcName ++ "(" ++ paramStr ++ ")"
  let funcDef := if returnType ≠ "" then funcDef ++ (" " ++ returnType) else funcDef
  funcDef ++ " \x7b"

/-- One iteration of the loop `for _, token := range tokens` of `Compile`: the `switch` on
`token.Command`. The result is `none` where the Go code indexes a slice out of range. -/
def processToken (s : GenState) (token : Token) : Option GenState :=
  if token.Command = "print" then
    some { s with output := s.output ++ ["\tfmt.Println(" ++ Join token.Args " " ++ ")"] }
  else if token.Command = "printf" then
    match token.Args with
    | [] => some s
    | format :: args =>
      some { s with output := s.output ++
        ["\tfmt.Printf(" ++ format ++ ", " ++ Join args ", " ++ ")"] }
  else if token.Command = "let" then
    match token.Args with
    | varName :: a1 :: rest =>
      if isType a1 then
        if rest = [] then some s
        else some { s with output := s.output ++
          ["\tvar " ++ varName ++ " " ++ a1 ++ " = " ++ Join rest " "] }
      else
        some { s with output := s.output ++ ["\t" ++ varName ++ " := " ++ Join (a1 :: rest) " "] }
    | _ => some s
  else if token.Command = "set" then
    match token.Args with
    | varName :: a1 :: rest =>
      some { s with output := s.output ++ ["\t" ++ varName ++ " = " ++ Join (a1 :: rest) " "] }
    | _ => some s
  else if token.Command = "if" then
    some { s with output := s.output ++ ["\tif " ++ Join token.Args " " ++ " \x7b"] }
  else if token.Command = "else" then
    some { s with output := s.output ++ ["\t\x7d else \x7b"] }
  else if token.Command = "end" then
    some { s with output := s.output ++ ["\t\x7d"] }
  else if token.Command = "while" then
    some { s with output := s.output ++ ["\tfor " ++ Join token.Args " " ++ " \x7b"] }
  else if token.Command = "for" then
    some { s with output := s.output ++ ["\tfor " ++ Join token.Args " " ++ " \x7b"] }
  else if token.Command = "func" then
    match token.Args with
    | [] => some s
    | p0 :: rest =>
      if HasPrefix p0 "(" then
        match rest with
        | [] => none
        | p1 :: rest2 =>
          some { s with additionalCode := s.additionalCode ++ [funcHeader p0 p1 rest2] }
      else
        some { s with additionalCode := s.additionalCode ++ [funcHeader "" p0 rest] }
  else if token.Command = "endfunc" then
    some { s with additionalCode := s.additionalCode ++ ["\x7d"] }
  else if token.Command = "call" then
    match token.Args with
    | [] => some s
    | funcName :: args =>
      some { s with output := s.output ++ ["\t" ++ funcName ++ "(" ++ Join args ", " ++ ")"] }
  else if token.Command = "return" then
    if token.Args.length = 0 then
      some { s with additionalCode := s.additionalCode ++ ["\treturn"] }
    else
      some { s with additionalCode := s.additionalCode ++ ["\treturn " ++ Join token.Args " "] }
  else if token.Command = "input" then
    match token.Args with
    | [varName, typeName] =>
      if isType typeName then
        some { s with output := s.output ++
          ["\tvar " ++ varName ++ " " ++ typeName, "\tfmt.Scan(&" ++ varName ++ ")"] }
      else some s
    | [varName] => some { s with output := s.output ++ ["\tfmt.Scan(&" ++ varName ++ ")"] }
    | _ => some s
  else if token.Command = "switch" then
    some { s with output := s.output ++ ["\tswitch " ++ Join token.Args " " ++ " \x7b"] }
  else if token.Command = "case" then
    some { s with output := s.output ++ ["\tcase " ++ Join token.Args " " ++ ":"] }
  else if token.Command = "default" then
    some { s with output := s.output ++ ["\tdefault:"] }
  else if token.Command = "endswitch" then
    some { s with output := s.output ++ ["\t\x7d"] }
  else if token.Command = "try" then
    some { s with output := s.output ++
      ["\tfunc() \x7b", "\t\tdefer func() \x7b", "\t\t\tif err := recover(); err != nil \x7b"] }
  else if token.Command = "catch" then
    match token.Args with
    | errVar :: _ =>
      some { s with output := s.output ++
        ["\t\t\t\t" ++ errVar ++ " := err", "\t\t\t\t// Handle error"] }
    | [] => some { s with output := s.output ++ ["\t\t\t\t// Handle error"] }
  else if token.Command = "endtry" then
    some { s with output := s.output ++ ["\t\t\t\x7d", "\t\t\x7d()"] }
  else if token.Command = "struct" then
    match token.Args with
    | [] => some s
    | a0 :: _ =>
      some { s with currentStruct := a0,
                    additionalCode := s.additionalCode ++ ["type " ++ a0 ++ " struct \x7b"] }
  else if token.Command = "field" then
    if s.currentStruct = "" then some s
    else
      match token.Args with
      | fieldName :: a1 :: rest =>
        some { s with additionalCode := s.additionalCode ++
          ["\t" ++ fieldName ++ " " ++ Join (a1 :: rest) " "] }
      | _ => some s
  else if token.Command = "endstruct" then
    if s.currentStruct ≠ "" then
      some { s with additionalCode := s.additionalCode ++ ["\x7d"], currentStruct := "" }
    else some s
  else if token.Command = "inc" then
    match token.Args with
    | [a0] => some { s with output := s.output ++ ["\t" ++ a0 ++ "++"] }
    | _ => some s
  else if token.Command = "dec" then
    match token.Args with
    | [a0] => some { s with output := s.output ++ ["\t" ++ a0 ++ "--"] }
    | _ => some s
  else if token.Command = "const" then
    match token.Args with
    | constName :: a1 :: rest =>
      if isType a1 then
        if rest = [] then some s
        else some { s with additionalCode := s.additionalCode ++
          ["const " ++ constName ++ " " ++ a1 ++ " = " ++ Join rest " "] }
      else
        some { s with additionalCode := s.additionalCode ++
          ["const " ++ constName ++ " = " ++ Join (a1 :: rest) " "] }
    | _ => some s
  else if token.Command = "import" then
    if token.Args.length ≥ 1 then
      some { s with imports := mapSet s.imports (Join token.Args " ") }
    else some s
  else some s

/-- The loop `for _, token := range tokens` of `Compile`, from the state `s`. -/
def processTokens (s : GenState) : List Token → Option GenState
  | [] => some s
  | token :: rest =>
    match processToken s token with
    | none => none
    | some s1 => processTokens s1 rest

/-- The list `importList` of `Compile`, for the order `keys` in which `range imports` visits
the package names. -/
def importList (keys : List String) : List String :=
  keys.map (fun pkg => "\t\"" ++ pkg ++ "\"")

/-- The final assembly of `Compile` (from `importList := []string{}` to the `return`), for the
order `keys` in which `range imports` visits the package names. Reading `output[3]` faults
when `output` has only its three initial lines. -/
def assemble (keys : List String) (s : GenState) : Option String :=
  let output := s.output.set 2 (Join (importList keys) "\n")
  match output with
  | o0 :: o1 :: o2 :: o3 :: rest =>
    let fullOutput := [o0, o1, o2, o3]
    let fullOutput := fullOutput ++ s.additionalCode
    let fullOutput := fullOutput ++ ["func main() \x7b"]
    let fullOutput := fullOutput ++ rest
    let fullOutput := fullOutput ++ ["\x7d"]
    some (Join fullOutput "\n")
  | _ => none

/-- The function `Compile` of the source, for a visiting order of the import map given as a
function `order` from the list of keys to a rearrangement of it. -/
def CompileWith (order : List String → List String) (tokens : List Token) : Option String :=
  match processTokens GenState.init tokens with
  | none => none
  | some s => assemble (order s.imports) s

/-- The function `Compile` of the source, visiting the import map in the order in which the
package names were first added. -/
def Compile (tokens : List Token) : Option String :=
  CompileWith id tokens

/-! ## Definitions used to state the properties -/

/-- The nine type keywords listed by the specification. -/
def typeKeywords : List String :=
  ["int", "float64", "string", "bool", "rune", "byte", "[]int", "[]string", "[]float64"]

/-- The state after appending the line `l` to the main body. -/
def GenState.emitMain (s : GenState) (l : String) : GenState :=
  { s with output := s.output ++ [l] }

/-- The state after appending the line `l` to the top-level buffer. -/
def GenState.emitTop (s : GenState) (l : String) : GenState :=
  { s with additionalCode := s.additionalCode ++ [l] }

/-- The token `field f t ts...` for a field given by its name, its first type word and the
remaining type words. -/
def fieldToken (f : String × String × List String) : Token :=
  { Command := "field", Args := f.1 :: f.2.1 :: f.2.2 }

/-- The declaration line the specification gives for a field: a tab, the field name, a space
and the remaining arguments joined by single spaces. -/
def fieldLine (f : String × String × List String) : String :=
  "\t" ++ f.1 ++ " " ++ Join (f.2.1 :: f.2.2) " "

/-- The parameter words of a list of `(name, type)` pairs, in order. -/
def paramWords : List (String × String) → List String
  | [] => []
  | p :: ps => p.1 :: p.2 :: paramWords ps

/-- The parameter list the specification gives for `(name, type)` pairs: each pair as
`name type`, the pairs joined by a comma and a space. -/
def paramText (ps : List (String × String)) : String :=
  Join (ps.map (fun p => p.1 ++ " " ++ p.2)) ", "

/-- The commands of the rule table. -/
def commands : List String :=
  ["print", "printf", "let", "set", "if", "else", "end", "while", "for", "func", "endfunc",
   "call", "return", "input", "switch", "case", "default", "endswitch", "try", "catch",
   "endtry", "struct", "field", "endstruct", "inc", "dec", "const", "import"]

/-- The token `t` is an `import` token for the package name `p`: its command is `import`, it
has at least one argument, and its arguments joined by single spaces give `p`. -/
def isImportOf (p : String) (t : Token) : Bool :=
  t.Command = "import" && t.Args ≠ [] && Join t.Args " " = p

/-- The token sequence without its `import p` tokens. -/
def dropImports (p : String) (ts : List Token) : List Token :=
  ts.filter (fun t => !isImportOf p t)

/-- The token sequence in which `import p` occurs at most once: the first `import p` token is
kept, every later one is removed. -/
def keepFirstImport (p : String) : List Token → List Token
  | [] => []
  | t :: ts => if isImportOf p t then t :: dropImports p ts else t :: keepFirstImport p ts

/-- The entry of the import block for the package name `p`: a tab and `p` in double quotes. -/
def importEntry (p : String) : String := "\t\"" ++ p ++ "\""

/-- The characters the tokenizer treats specially: space, tab, the two quote characters, the
two brackets and the backslash. -/
def specialChars : List Char := [' ', '\t', '\'', '"', '[', ']', '\\']

/-- The quote characters, the brackets and the backslash. -/
def quoteBracketChars : List Char := ['\'', '"', '[', ']', '\\']

/-- A text without space, tab, quote, bracket or backslash. -/
def isPlainText (cs : List Char) : Bool :=
  cs.all (fun c => !specialChars.contains c)

/-- Word of kind (a): a non-empty text without space, tab, quote, bracket or backslash. -/
def isPlainWord (w : String) : Bool :=
  !w.data.isEmpty && isPlainText w.data

/-- Word of kind (b): a quote character `q`, a text containing neither `q` nor a backslash,
and `q` again. -/
def isQuotedSpan (w : String) : Bool :=
  match w.data with
  | [] => false
  | q :: rest =>
    (q == '\'' || q == '"') && rest.getLast? == some q &&
      rest.dropLast.all (fun c => c != q && c != '\\')

/-- Word of kind (c): `[`, a text without quote, bracket or backslash, and `]`. -/
def isBracketSpan (w : String) : Bool :=
  match w.data with
  | [] => false
  | b :: rest =>
    b == '[' && rest.getLast? == some ']' &&
      rest.dropLast.all (fun c => !quoteBracketChars.contains c)

/-- A word of one of the three kinds. -/
def isWord (w : String) : Bool :=
  isPlainWord w || isQuotedSpan w || isBracketSpan w

/-- A token with too few arguments, as the specification lists them: `printf`, `func`, `call`,
`struct` or `import` with no argument; `let`, `set`, `field` or `const` with fewer than two
arguments; `input` with two arguments whose second is not a type keyword. -/
def isMalformed (t : Token) : Bool :=
  (["printf", "func", "call", "struct", "import"].contains t.Command && t.Args.isEmpty) ||
  (["let", "set", "field", "const"].contains t.Command && decide (t.Args.length < 2)) ||
  (t.Command == "input" &&
    match t.Args with
    | [_, ty] => !typeKeywords.contains ty
    | _ => false)

/-- The number of occurrences of the character `c` in the lines `ls`. -/
def countChar (c : Char) (ls : List String) : Nat :=
  (ls.map (fun l => l.data.count c)).sum

/-- A line that is neither empty after trimming white space nor begins, after trimming,
with `#`. -/
def isCodeLine (l : String) : Bool :=
  TrimSpace l != "" && !HasPrefix (TrimSpace l) "#"

/-- The number of lines of the input (split on newline) that are neither blank nor comment
lines. -/
def codeLineCount (input : String) : Nat :=
  ((SplitLines input).filter isCodeLine).length

/-- A line that is neither blank nor a comment line nor, after trimming, a lone backslash. -/
def isTokenLine (l : String) : Bool :=
  isCodeLine l && TrimSpace l != "\\"

/-- The commands the rule table assigns to the top-level buffer. -/
def topLevelCommands : List String :=
  ["func", "endfunc", "return", "struct", "field", "endstruct", "const"]

/-- The commands the rule table assigns to the main body. -/
def mainBodyCommands : List String :=
  ["print", "printf", "let", "set", "if", "else", "end", "while", "for", "call", "input",
   "switch", "case", "default", "endswitch", "try", "catch", "endtry", "inc", "dec"]

/-- The token appends at least one line to the main body when it is processed: the commands
that always emit, `printf` and `call` with at least one argument, `set` with at least two,
`let` in its typed form with a value or in its inferred form, `input` with one argument or
with a name and a type keyword, `inc` and `dec` with exactly one argument. -/
def appendsMain (t : Token) : Bool :=
  ["print", "if", "else", "end", "while", "for", "switch", "case", "default", "endswitch",
    "try", "catch", "endtry"].contains t.Command ||
  (["printf", "call"].contains t.Command && !t.Args.isEmpty) ||
  (t.Command == "set" && decide (2 ≤ t.Args.length)) ||
  (t.Command == "let" &&
    match t.Args with
    | _ :: a1 :: rest => !typeKeywords.contains a1 || !rest.isEmpty
    | _ => false) ||
  (t.Command == "input" &&
    match t.Args with
    | [_] => true
    | [_, ty] => typeKeywords.contains ty
    | _ => false) ||
  (["inc", "dec"].contains t.Command && t.Args.length == 1)

/-- A `func` token with exactly one argument, and that argument begins with `(`. -/
def lonelyReceiver (t : Token) : Bool :=
  t.Command == "func" &&
    match t.Args with
    | [p0] => HasPrefix p0 "("
    | _ => false

/-- The commands that write to the top-level buffer or to the set of imports only. -/
def nonBodyCommands : List String :=
  ["func", "endfunc", "return", "struct", "field", "endstruct", "const", "import"]

/-! ## Helper lemmas -/

theorem isType_iff (t : String) : isType t = true ↔ t ∈ typeKeywords := by
  simp [isType, typeKeywords, or_assoc]

theorem processTokens_append (s : GenState) (ts us : List Token) :
    processTokens s (ts ++ us) =
      (processTokens s ts).bind (fun s1 => processTokens s1 us) := by
  induction ts generalizing s with
  | nil => simp [processTokens]
  | cons t ts ih =>
    simp only [List.cons_append, processTokens]
    cases processToken s t with
    | none => simp
    | some s1 => simpa using ih s1

theorem processTokens_fields (s : GenState) (hs : s.currentStruct ≠ "")
    (fields : List (String × String × List String)) :
    processTokens s (fields.map fieldToken) =
      some { s with additionalCode := s.additionalCode ++ fields.map fieldLine } := by
  induction fields generalizing s with
  | nil => simp [processTokens]
  | cons f fs ih =>
    have h1 : processToken s (fieldToken f) = some (s.emitTop (fieldLine f)) := by
      simp [processToken, fieldToken, fieldLine, GenState.emitTop, hs]
    simp only [List.map_cons, processTokens, h1]
    rw [ih (s.emitTop (fieldLine f)) (by simpa [GenState.emitTop] using hs)]
    simp [GenState.emitTop]

theorem processToken_endstruct (s : GenState) (args : List String) :
    ∃ s1, processToken s ⟨"endstruct", args⟩ = some s1 ∧ s1.currentStruct = "" := by
  by_cases h : s.currentStruct = ""
  · exact ⟨s, by simp [processToken, h], h⟩
  · exact ⟨{ s with additionalCode := s.additionalCode ++ ["\x7d"], currentStruct := "" },
      by simp [processToken, h], rfl⟩

theorem scanArrow_no_arrow (qs : List String) (h : "->" ∉ qs) : scanArrow qs = (qs, "") := by
  induction qs with
  | nil => rfl
  | cons p qs ih =>
    cases qs with
    | nil => rfl
    | cons q rest =>
      have hp : p ≠ "->" := fun hc => h (by simp [hc])
      have hr : "->" ∉ q :: rest := fun hc => h (List.mem_cons_of_mem _ hc)
      simp [scanArrow, hp, ih hr]

theorem scanArrow_arrow (qs : List String) (r : String) (h : "->" ∉ qs) :
    scanArrow (qs ++ ["->", r]) = (qs, r) := by
  induction qs with
  | nil => simp [scanArrow]
  | cons p qs ih =>
    have hp : p ≠ "->" := fun hc => h (by simp [hc])
    have hr : "->" ∉ qs := fun hc => h (List.mem_cons_of_mem _ hc)
    cases qs with
    | nil => simp [scanArrow, hp]
    | cons q rest =>
      have ih1 := ih hr
      simp only [List.cons_append] at ih1 ⊢
      simp [scanArrow, hp, ih1]

theorem pairParams_paramWords (ps : List (String × String)) (d : Option String) :
    pairParams (paramWords ps ++ d.toList) = ps.map (fun p => p.1 ++ " " ++ p.2) := by
  induction ps with
  | nil => cases d <;> simp [paramWords, pairParams]
  | cons p ps ih => simp [paramWords, pairParams, ih]

theorem HasPrefix_paren (name : String) (h : name.data.head? ≠ some '(') :
    HasPrefix name "(" = false := by
  have hd : ("(" : String).data = ['('] := rfl
  unfold HasPrefix
  rw [hd]
  cases hn : name.data with
  | nil => rfl
  | cons c cs =>
    rw [hn] at h
    have hc : c ≠ '(' := fun hc => h (by simp [hc])
    simp [List.isPrefixOf, hc]
    exact fun hc2 => hc hc2.symm

theorem processToken_imports (s s1 : GenState) (t : Token) (h : processToken s t = some s1) :
    s1.imports =
      if t.Command = "import" ∧ t.Args ≠ [] then mapSet s.imports (Join t.Args " ")
      else s.imports := by
  obtain ⟨cmd, args⟩ := t
  by_cases hm : cmd ∈ commands
  · simp only [commands, List.mem_cons, List.mem_singleton, List.not_mem_nil, or_false] at hm
    rcases hm with rfl | rfl | rfl | rfl | rfl | rfl | rfl | rfl | rfl | rfl | rfl | rfl | rfl |
      rfl | rfl | rfl | rfl | rfl | rfl | rfl | rfl | rfl | rfl | rfl | rfl | rfl | rfl | rfl <;>
    simp only [processToken, String.reduceEq, if_false, if_true] at h <;>
    (try split at h) <;> (try split at h) <;> (try split at h) <;>
    first
      | (injection h with h; subst h; simp; done)
      | (injection h with h; subst h; cases args <;> simp_all)
      | (exact absurd h (by simp))
  · simp only [commands, List.mem_cons, List.mem_singleton, List.not_mem_nil, or_false,
      not_or] at hm
    simp [processToken, hm] at h
    simp [← h, hm]

theorem mem_mapSet (m : List String) (k q : String) : q ∈ mapSet m k ↔ q ∈ m ∨ q = k := by
  unfold mapSet
  split
  · constructor
    · exact fun h => Or.inl h
    · rintro (h | h)
      · exact h
      · subst h; assumption
  · simp

theorem nodup_mapSet (m : List String) (k : String) (h : m.Nodup) : (mapSet m k).Nodup := by
  unfold mapSet
  split
  · exact h
  · rename_i hk
    rw [List.nodup_append]
    refine ⟨h, List.nodup_singleton k, ?_⟩
    intro a ha hb
    simp only [List.mem_singleton] at hb
    exact hk (hb ▸ ha)

theorem processToken_mem_imports (s s1 : GenState) (t : Token) (q : String)
    (h : processToken s t = some s1) :
    q ∈ s1.imports ↔ q ∈ s.imports ∨ isImportOf q t = true := by
  rw [processToken_imports s s1 t h]
  by_cases hc : t.Command = "import" ∧ t.Args ≠ []
  · rw [if_pos hc, mem_mapSet]
    simp [isImportOf, hc.1, hc.2, eq_comm]
  · rw [if_neg hc]
    have : isImportOf q t = false := by
      simp only [isImportOf, Bool.and_eq_false_imp, Bool.and_eq_true, decide_eq_true_eq,
        decide_eq_false_iff_not]
      intro h1
      exact absurd h1 hc
    simp [this]

theorem processToken_nodup_imports (s s1 : GenState) (t : Token)
    (h : processToken s t = some s1) (hn : s.imports.Nodup) : s1.imports.Nodup := by
  rw [processToken_imports s s1 t h]
  split
  · exact nodup_mapSet _ _ hn
  · exact hn

theorem processToken_import_again (s : GenState) (t : Token) (p : String)
    (ht : isImportOf p t = true) (hp : p ∈ s.imports) : processToken s t = some s := by
  obtain ⟨cmd, args⟩ := t
  simp only [isImportOf, Bool.and_eq_true, decide_eq_true_eq] at ht
  obtain ⟨⟨rfl, ha⟩, rfl⟩ := ht
  cases args with
  | nil => exact absurd rfl ha
  | cons a as => simp [processToken, mapSet, hp]

theorem processTokens_dropImports (s : GenState) (ts : List Token) (p : String)
    (hp : p ∈ s.imports) : processTokens s (dropImports p ts) = processTokens s ts := by
  induction ts generalizing s with
  | nil => rfl
  | cons t ts ih =>
    by_cases ht : isImportOf p t = true
    · have hd : dropImports p (t :: ts) = dropImports p ts := by
        simp [dropImports, ht]
      rw [hd, ih s hp]
      simp [processTokens, processToken_import_again s t p ht hp]
    · have hd : dropImports p (t :: ts) = t :: dropImports p ts := by
        simp [dropImports, ht]
      rw [hd]
      simp only [processTokens]
      cases h1 : processToken s t with
      | none => rfl
      | some s1 =>
        exact ih s1 ((processToken_mem_imports s s1 t p h1).2 (Or.inl hp))

theorem processTokens_keepFirstImport (s : GenState) (ts : List Token) (p : String) :
    processTokens s (keepFirstImport p ts) = processTokens s ts := by
  induction ts generalizing s with
  | nil => rfl
  | cons t ts ih =>
    by_cases ht : isImportOf p t = true
    · simp only [keepFirstImport, ht, if_true, processTokens]
      cases h1 : processToken s t with
      | none => rfl
      | some s1 =>
        exact processTokens_dropImports s1 ts p
          ((processToken_mem_imports s s1 t p h1).2 (Or.inr ht))
    · simp only [keepFirstImport, ht, processTokens]
      cases h1 : processToken s t with
      | none => rfl
      | some s1 => exact ih s1

theorem processTokens_mem_imports (s s1 : GenState) (ts : List Token) (q : String)
    (h : processTokens s ts = some s1) :
    q ∈ s1.imports ↔ q ∈ s.imports ∨ ∃ t ∈ ts, isImportOf q t = true := by
  induction ts generalizing s with
  | nil =>
    simp only [processTokens, Option.some.injEq] at h
    simp [h]
  | cons t ts ih =>
    simp only [processTokens] at h
    cases h1 : processToken s t with
    | none => simp [h1] at h
    | some s2 =>
      rw [h1] at h
      rw [ih s2 h, processToken_mem_imports s s2 t q h1]
      simp [or_assoc]

theorem processTokens_nodup_imports (s s1 : GenState) (ts : List Token)
    (h : processTokens s ts = some s1) (hn : s.imports.Nodup) : s1.imports.Nodup := by
  induction ts generalizing s with
  | nil =>
    simp only [processTokens, Option.some.injEq] at h
    exact h ▸ hn
  | cons t ts ih =>
    simp only [processTokens] at h
    cases h1 : processToken s t with
    | none => simp [h1] at h
    | some s2 =>
      rw [h1] at h
      exact ih s2 h (processToken_nodup_imports s s2 t h1 hn)

theorem importEntry_injective : Function.Injective importEntry := by
  intro p q h
  have h2 := congrArg String.data h
  simp only [importEntry, String.data_append] at h2
  have h3 := List.append_cancel_left (List.append_cancel_right h2)
  exact String.ext h3

theorem importList_eq_map (keys : List String) : importList keys = keys.map importEntry := rfl

theorem scan_plain (T : List String) (l cs : List Char) (q : Char) (b : Nat)
    (h : isPlainText cs = true) :
    cs.foldl scanChar ⟨T, ⟨l⟩, q, b, false⟩ = ⟨T, ⟨l ++ cs⟩, q, b, false⟩ := by
  induction cs generalizing l with
  | nil => simp
  | cons c cs ih =>
    simp only [isPlainText, List.all_cons, Bool.and_eq_true] at h
    have hc := h.1
    simp only [specialChars, List.contains_eq_any_beq, List.any_cons, List.any_nil,
      Bool.or_false, Bool.not_eq_true', Bool.or_eq_false_iff, beq_eq_false_iff_ne, ne_eq] at hc
    obtain ⟨h1, h2, h3, h4, h5, h6, h7⟩ := hc
    have hstep : scanChar ⟨T, ⟨l⟩, q, b, false⟩ c = ⟨T, ⟨l ++ [c]⟩, q, b, false⟩ := by
      simp [scanChar, h1, h2, h3, h4, h5, h6, h7, String.push]
    rw [List.foldl_cons, hstep, ih (l ++ [c]) h.2]
    simp

theorem scan_in_quote (T : List String) (l cs : List Char) (q : Char) (b : Nat)
    (hq : q = '\'' ∨ q = '"') (h : cs.all (fun c => c != q && c != '\\') = true) :
    cs.foldl scanChar ⟨T, ⟨l⟩, q, b, false⟩ = ⟨T, ⟨l ++ cs⟩, q, b, false⟩ := by
  have hq0 : q ≠ noQuote := by
    rcases hq with rfl | rfl <;> decide
  induction cs generalizing l with
  | nil => simp
  | cons c cs ih =>
    simp only [List.all_cons, Bool.and_eq_true, bne_iff_ne, ne_eq] at h
    obtain ⟨⟨h1, h2⟩, h3⟩ := h
    have hstep : scanChar ⟨T, ⟨l⟩, q, b, false⟩ c = ⟨T, ⟨l ++ [c]⟩, q, b, false⟩ := by
      have h1b : ¬ q = c := fun hc => h1 hc.symm
      unfold scanChar
      simp only [Bool.false_eq_true, if_false, h2, hq0, h1b, false_and]
      split_ifs <;> rfl
    rw [List.foldl_cons, hstep, ih (l ++ [c])]
    · simp
    · simpa [List.all_eq_true] using h3

theorem scan_in_bracket (T : List String) (l cs : List Char) (n : Nat)
    (h : cs.all (fun c => !quoteBracketChars.contains c) = true) :
    cs.foldl scanChar ⟨T, ⟨l⟩, noQuote, n + 1, false⟩ = ⟨T, ⟨l ++ cs⟩, noQuote, n + 1, false⟩ := by
  induction cs generalizing l with
  | nil => simp
  | cons c cs ih =>
    simp only [List.all_cons, Bool.and_eq_true] at h
    have hc := h.1
    simp only [quoteBracketChars, List.contains_eq_any_beq, List.any_cons, List.any_nil,
      Bool.or_false, Bool.not_eq_true', Bool.or_eq_false_iff, beq_eq_false_iff_ne, ne_eq] at hc
    obtain ⟨h1, h2, h3, h4, h5⟩ := hc
    have hstep : scanChar ⟨T, ⟨l⟩, noQuote, n + 1, false⟩ c =
        ⟨T, ⟨l ++ [c]⟩, noQuote, n + 1, false⟩ := by
      simp [scanChar, h1, h2, h3, h4, h5, String.push]
    rw [List.foldl_cons, hstep, ih (l ++ [c]) h.2]
    simp

theorem list_eq_dropLast_concat (rest : List Char) (q : Char) (h : rest.getLast? = some q) :
    rest = rest.dropLast ++ [q] := by
  have hne : rest ≠ [] := by
    intro hc
    simp [hc] at h
  have h1 := List.dropLast_append_getLast hne
  rw [List.getLast?_eq_getLast _ hne] at h
  simp only [Option.some.injEq] at h
  rw [h] at h1
  exact h1.symm

theorem scan_word (T : List String) (l : List Char) (w : String) (h : isWord w = true) :
    w.data.foldl scanChar ⟨T, ⟨l⟩, noQuote, 0, false⟩ = ⟨T, ⟨l ++ w.data⟩, noQuote, 0, false⟩ := by
  simp only [isWord, Bool.or_eq_true] at h
  rcases h with (h | h) | h
  · simp only [isPlainWord, Bool.and_eq_true] at h
    exact scan_plain T l w.data noQuote 0 h.2
  · unfold isQuotedSpan at h
    cases hw : w.data with
    | nil => simp [hw] at h
    | cons q rest =>
      simp only [hw, Bool.and_eq_true, Bool.or_eq_true, beq_iff_eq] at h
      obtain ⟨⟨hq, hlast⟩, hall⟩ := h
      have hrest := list_eq_dropLast_concat rest q hlast
      have hq0 : q ≠ noQuote := by
        rcases hq with rfl | rfl <;> decide
      have hqb : q ≠ '\\' := by
        rcases hq with rfl | rfl <;> decide
      have hopen : scanChar ⟨T, ⟨l⟩, noQuote, 0, false⟩ q = ⟨T, ⟨l ++ [q]⟩, q, 0, false⟩ := by
        unfold scanChar
        simp only [Bool.false_eq_true, if_false, hqb, hq, if_true]
        rfl
      have hclose : ∀ l2 : List Char,
          scanChar ⟨T, ⟨l2⟩, q, 0, false⟩ q = ⟨T, ⟨l2 ++ [q]⟩, noQuote, 0, false⟩ := by
        intro l2
        unfold scanChar
        simp only [Bool.false_eq_true, if_false, hqb, hq, if_true, hq0]
        rfl
      rw [hrest, List.foldl_cons, hopen, List.foldl_append,
        scan_in_quote T (l ++ [q]) rest.dropLast q 0 hq hall]
      simp [hclose]
  · unfold isBracketSpan at h
    cases hw : w.data with
    | nil => simp [hw] at h
    | cons b rest =>
      simp only [hw, Bool.and_eq_true, beq_iff_eq] at h
      obtain ⟨⟨hb, hlast⟩, hall⟩ := h
      subst hb
      have hrest := list_eq_dropLast_concat rest ']' hlast
      have hopen : scanChar ⟨T, ⟨l⟩, noQuote, 0, false⟩ '[' =
          ⟨T, ⟨l ++ ['[']⟩, noQuote, 0 + 1, false⟩ := by
        simp [scanChar, String.push]
      have hclose : ∀ l2 : List Char,
          scanChar ⟨T, ⟨l2⟩, noQuote, 0 + 1, false⟩ ']' =
            ⟨T, ⟨l2 ++ [']']⟩, noQuote, 0, false⟩ := by
        intro l2
        simp [scanChar, String.push]
      rw [hrest, List.foldl_cons, hopen, List.foldl_append,
        scan_in_bracket T (l ++ ['[']) rest.dropLast 0 hall]
      simp [hclose]

theorem isWord_ne_nil (w : String) (h : isWord w = true) : w.data ≠ [] := by
  intro hc
  simp [isWord, isPlainWord, isQuotedSpan, isBracketSpan, hc] at h

theorem string_mk_ne_empty (l : List Char) (h : l ≠ []) : (⟨l⟩ : String) ≠ "" := by
  intro hc
  exact h (congrArg String.data hc)

theorem scan_words (T : List String) (ws : List String) (h : ∀ w ∈ ws, isWord w = true) :
    ((Join ws " ").data.foldl scanChar ⟨T, "", noQuote, 0, false⟩).finish = T ++ ws := by
  induction ws generalizing T with
  | nil => simp [Join, LineState.finish]
  | cons a rest ih =>
    have ha : isWord a = true := h a (List.mem_cons_self a rest)
    have hne := isWord_ne_nil a ha
    have hscan := scan_word T [] a ha
    simp only [List.nil_append] at hscan
    cases rest with
    | nil =>
      have he : (⟨[]⟩ : String) = "" := rfl
      rw [Join, ← he, hscan]
      simp [LineState.finish, string_mk_ne_empty _ hne]
    | cons b rest2 =>
      have he : (⟨[]⟩ : String) = "" := rfl
      have hsp : (" " : String).data = [' '] := rfl
      have hflush : scanChar ⟨T, ⟨a.data⟩, noQuote, 0, false⟩ ' ' =
          ⟨T ++ [a], "", noQuote, 0, false⟩ := by
        simp [scanChar, string_mk_ne_empty _ hne]
      rw [Join, String.data_append, String.data_append, hsp, List.append_assoc,
        List.foldl_append, ← he, hscan, List.singleton_append, List.foldl_cons, hflush,
        ih (T ++ [a]) (fun w hw => h w (List.mem_cons_of_mem a hw))]
      simp

theorem scan_escape (u v : String) (c : Char) (hu : isPlainText u.data = true)
    (hv : isPlainText v.data = true) :
    (u ++ "\\" ++ String.singleton c ++ v).data.foldl scanChar LineState.init =
      ⟨[], u ++ String.singleton c ++ v, noQuote, 0, false⟩ := by
  have hb : ("\\" : String).data = ['\\'] := rfl
  have hc : (String.singleton c).data = [c] := rfl
  have h1 := scan_plain [] [] u.data noQuote 0 hu
  have h2 : scanChar ⟨[], ⟨[] ++ u.data⟩, noQuote, 0, false⟩ '\\' =
      ⟨[], ⟨[] ++ u.data⟩, noQuote, 0, true⟩ := by
    simp [scanChar]
  have h3 : scanChar ⟨[], ⟨[] ++ u.data⟩, noQuote, 0, true⟩ c =
      ⟨[], ⟨[] ++ u.data ++ [c]⟩, noQuote, 0, false⟩ := by
    simp [scanChar, String.push]
  have h4 := scan_plain [] ([] ++ u.data ++ [c]) v.data noQuote 0 hv
  have hres : (⟨[] ++ u.data ++ [c] ++ v.data⟩ : String) = u ++ String.singleton c ++ v := by
    apply String.ext
    simp [String.data_append, hc]
  unfold LineState.init
  have he : (⟨[]⟩ : String) = "" := rfl
  rw [String.data_append, String.data_append, String.data_append, hb, hc, List.append_assoc,
    List.append_assoc, List.foldl_append, ← he, h1, List.singleton_append, List.foldl_cons, h2,
    List.singleton_append, List.foldl_cons, h3, h4, hres]

theorem tokenizeLine_escape (u v : String) (c : Char) (hu : isPlainText u.data = true)
    (hv : isPlainText v.data = true) :
    tokenizeLine (u ++ "\\" ++ String.singleton c ++ v) = [u ++ String.singleton c ++ v] := by
  have hne : u ++ String.singleton c ++ v ≠ "" := by
    intro h
    have h2 := congrArg String.data h
    have hc : (String.singleton c).data = [c] := rfl
    have he : ("" : String).data = [] := rfl
    simp [String.data_append, hc, he] at h2
  unfold tokenizeLine
  rw [scan_escape u v c hu hv, LineState.finish, if_pos hne]
  rfl

theorem splitNewline_ne_nil (cs : List Char) : splitNewline cs ≠ [] := by
  induction cs with
  | nil => simp [splitNewline]
  | cons c cs ih =>
    unfold splitNewline
    split
    · simp
    · split <;> simp

theorem splitNewline_append (a b : List Char) :
    splitNewline (a ++ '\n' :: b) = splitNewline a ++ splitNewline b := by
  induction a with
  | nil => simp [splitNewline]
  | cons c a ih =>
    by_cases hc : c = '\n'
    · simp [splitNewline, hc, ih]
    · simp only [List.cons_append, splitNewline, hc, if_false]
      have ih2 : splitNewline (a.append ('\n' :: b)) = splitNewline a ++ splitNewline b := ih
      rw [ih2]
      cases hs : splitNewline a with
      | nil => exact absurd hs (splitNewline_ne_nil a)
      | cons x xs => simp

theorem splitNewline_no_newline (cs : List Char) (h : '\n' ∉ cs) : splitNewline cs = [cs] := by
  induction cs with
  | nil => rfl
  | cons c cs ih =>
    have hc : c ≠ '\n' := fun hc => h (by simp [hc])
    have hr : '\n' ∉ cs := fun hr => h (List.mem_cons_of_mem c hr)
    simp [splitNewline, hc, ih hr]

theorem lexLine_acc (acc : List Token) (line : String) :
    lexLine acc line = acc ++ lexLine [] line := by
  unfold lexLine
  simp only []
  split
  · simp
  · split <;> simp

theorem foldl_lexLine_acc (acc : List Token) (ls : List String) :
    ls.foldl lexLine acc = acc ++ ls.foldl lexLine [] := by
  induction ls generalizing acc with
  | nil => simp
  | cons l ls ih =>
    simp only [List.foldl_cons]
    rw [ih (lexLine acc l), ih (lexLine [] l), lexLine_acc acc l, List.append_assoc]

theorem Lex_append_newline (a b : String) : Lex (a ++ "\n" ++ b) = Lex a ++ Lex b := by
  have hn : ("\n" : String).data = ['\n'] := rfl
  unfold Lex SplitLines
  rw [String.data_append, String.data_append, hn, List.append_assoc, List.singleton_append,
    splitNewline_append, List.map_append, List.foldl_append, foldl_lexLine_acc]

theorem Lex_empty : Lex "" = [] := by decide

theorem Lex_Join_cons (a : String) (rest : List String) :
    Lex (Join (a :: rest) "\n") = Lex a ++ Lex (Join rest "\n") := by
  cases rest with
  | nil => simp [Join, Lex_empty]
  | cons b rest2 => rw [Join, Lex_append_newline]

theorem dropWhile_append_singleton (p : Char → Bool) (l : List Char) (a : Char)
    (ha : p a = false) : (l ++ [a]).dropWhile p = l.dropWhile p ++ [a] := by
  induction l with
  | nil => simp [List.dropWhile, ha]
  | cons c l ih =>
    by_cases hc : p c = true
    · simp [List.dropWhile, hc, ih]
    · simp [List.dropWhile, hc]

theorem lexLine_skip (l : String)
    (h : l.data.dropWhile isSpace = [] ∨ (l.data.dropWhile isSpace).head? = some '#') :
    lexLine [] l = [] := by
  have hcond : TrimSpace l = "" ∨ HasPrefix (TrimSpace l) "#" = true := by
    rcases h with h | h
    · left
      simp [TrimSpace, h]
    · right
      cases hd : l.data.dropWhile isSpace with
      | nil => simp [hd] at h
      | cons c r =>
        rw [hd] at h
        simp only [List.head?_cons, Option.some.injEq] at h
        subst h
        have hs : isSpace '#' = false := by decide
        have hh : ("#" : String).data = ['#'] := rfl
        unfold TrimSpace HasPrefix
        rw [hd, List.reverse_cons, dropWhile_append_singleton _ _ _ hs, List.reverse_append, hh]
        simp [List.isPrefixOf]
  unfold lexLine
  simp only []
  rw [if_pos hcond]

theorem Lex_skip_line (l : String) (hnl : '\n' ∉ l.data)
    (h : l.data.dropWhile isSpace = [] ∨ (l.data.dropWhile isSpace).head? = some '#') :
    Lex l = [] := by
  unfold Lex SplitLines
  rw [splitNewline_no_newline _ hnl]
  simp only [List.map_cons, List.map_nil, List.foldl_cons, List.foldl_nil]
  exact lexLine_skip l h

theorem Lex_Join_insert (pre post : List String) (l : String) (hl : Lex l = []) :
    Lex (Join (pre ++ [l] ++ post) "\n") = Lex (Join (pre ++ post) "\n") := by
  induction pre with
  | nil =>
    simp only [List.nil_append, List.singleton_append]
    rw [Lex_Join_cons, hl, List.nil_append]
  | cons a pre ih =>
    simp only [List.cons_append] at ih ⊢
    rw [Lex_Join_cons, Lex_Join_cons, ih]

theorem processToken_unknown (s : GenState) (t : Token) (h : t.Command ∉ commands) :
    processToken s t = some s := by
  simp only [commands, List.mem_cons, List.mem_singleton, List.not_mem_nil, or_false,
    not_or] at h
  simp [processToken, h]

theorem processTokens_skip (t : Token) (h : ∀ s : GenState, processToken s t = some s)
    (s0 : GenState) (ts us : List Token) :
    processTokens s0 (ts ++ [t] ++ us) = processTokens s0 (ts ++ us) := by
  rw [List.append_assoc, processTokens_append, processTokens_append]
  cases processTokens s0 ts with
  | none => rfl
  | some s1 => simp [processTokens, h s1]

theorem processToken_malformed (s : GenState) (t : Token) (h : isMalformed t = true) :
    processToken s t = some s := by
  obtain ⟨cmd, args⟩ := t
  simp only [isMalformed, Bool.or_eq_true, Bool.and_eq_true, List.contains_eq_any_beq,
    List.any_cons, List.any_nil, Bool.or_false, beq_iff_eq, List.isEmpty_iff,
    decide_eq_true_eq] at h
  rcases h with (⟨hc, ha⟩ | ⟨hc, ha⟩) | ⟨hc, ha⟩
  · subst ha
    rcases hc with rfl | rfl | rfl | rfl | rfl <;> simp [processToken]
  · rcases hc with rfl | rfl | rfl | rfl <;>
      (rcases args with _ | ⟨a, _ | ⟨b, r⟩⟩ <;>
        first
          | (simp only [List.length_cons] at ha; omega)
          | simp [processToken])
  · subst hc
    rcases args with _ | ⟨a, _ | ⟨b, _ | ⟨c, r⟩⟩⟩ <;> simp at ha
    have ht : isType b = false := by
      rw [Bool.eq_false_iff]
      intro hc
      exact ha b ((isType_iff b).1 hc) rfl
    simp [processToken, ht]

theorem scanArrow_arrow_extra (qs extra : List String) (r : String) (h : "->" ∉ qs) :
    scanArrow (qs ++ "->" :: r :: extra) = (qs, r) := by
  induction qs with
  | nil => simp [scanArrow]
  | cons p qs ih =>
    have hp : p ≠ "->" := fun hc => h (by simp [hc])
    have hr : "->" ∉ qs := fun hc => h (List.mem_cons_of_mem _ hc)
    cases qs with
    | nil => simp [scanArrow, hp]
    | cons q rest =>
      have ih1 := ih hr
      simp only [List.cons_append] at ih1 ⊢
      simp [scanArrow, hp, ih1]

theorem scanArrow_trailing (qs : List String) (h : "->" ∉ qs) :
    scanArrow (qs ++ ["->"]) = (qs ++ ["->"], "") := by
  induction qs with
  | nil => simp [scanArrow]
  | cons p qs ih =>
    have hp : p ≠ "->" := fun hc => h (by simp [hc])
    have hr : "->" ∉ qs := fun hc => h (List.mem_cons_of_mem _ hc)
    cases qs with
    | nil => simp [scanArrow, hp]
    | cons q rest =>
      have ih1 := ih hr
      simp only [List.cons_append] at ih1 ⊢
      simp [scanArrow, hp, ih1]

theorem HasPrefix_paren_true (recv : String) (h : recv.data.head? = some '(') :
    HasPrefix recv "(" = true ∧ recv ≠ "" := by
  have hd : ("(" : String).data = ['('] := rfl
  cases hn : recv.data with
  | nil => simp [hn] at h
  | cons c cs =>
    rw [hn] at h
    simp only [List.head?_cons, Option.some.injEq] at h
    subst h
    constructor
    · unfold HasPrefix
      rw [hd, hn]
      simp [List.isPrefixOf]
    · intro hc
      rw [hc] at hn
      exact absurd hn (by simp)

theorem push_ne_empty (s : String) (c : Char) : s.push c ≠ "" := by
  intro h
  have h2 := congrArg String.data h
  have he : ("" : String).data = [] := rfl
  rw [he] at h2
  cases s
  simp [String.push] at h2

theorem scanChar_nonempty (s : LineState) (c : Char)
    (h : s.tokens ≠ [] ∨ s.currentToken ≠ "") :
    (scanChar s c).tokens ≠ [] ∨ (scanChar s c).currentToken ≠ "" := by
  unfold scanChar
  split_ifs <;> first
    | exact Or.inr (push_ne_empty _ _)
    | exact h
    | (left; simp)

theorem foldl_scanChar_nonempty (cs : List Char) (s : LineState)
    (h : s.tokens ≠ [] ∨ s.currentToken ≠ "") :
    (cs.foldl scanChar s).tokens ≠ [] ∨ (cs.foldl scanChar s).currentToken ≠ "" := by
  induction cs generalizing s with
  | nil => exact h
  | cons c cs ih => exact ih (scanChar s c) (scanChar_nonempty s c h)

theorem finish_ne_nil (s : LineState) (h : s.tokens ≠ [] ∨ s.currentToken ≠ "") :
    s.finish ≠ [] := by
  unfold LineState.finish
  split_ifs with h1
  · simp
  · rcases h with h | h
    · exact h
    · exact absurd h h1

theorem tokenizeLine_ne_nil (c : Char) (cs : List Char) (hc : isSpace c = false)
    (hne : ¬ (c = '\\' ∧ cs = [])) : tokenizeLine ⟨c :: cs⟩ ≠ [] := by
  have h1 : c ≠ ' ' := fun h => by rw [h] at hc; exact absurd hc (by decide)
  have h2 : c ≠ '\t' := fun h => by rw [h] at hc; exact absurd hc (by decide)
  unfold tokenizeLine
  apply finish_ne_nil
  simp only [List.foldl_cons]
  by_cases hb : c = '\\'
  · cases cs with
    | nil => exact absurd ⟨hb, rfl⟩ hne
    | cons d ds =>
      have hstep : scanChar (scanChar LineState.init c) d =
          ⟨[], ("" : String).push d, noQuote, 0, false⟩ := by
        simp [scanChar, LineState.init, hb]
      simp only [List.foldl_cons]
      apply foldl_scanChar_nonempty
      rw [hstep]
      exact Or.inr (push_ne_empty _ _)
  · apply foldl_scanChar_nonempty
    right
    have hcur : (scanChar LineState.init c).currentToken = ("" : String).push c := by
      unfold scanChar
      simp only [LineState.init, Bool.false_eq_true, if_false, hb, h1, h2, or_self]
      split_ifs <;> rfl
    rw [hcur]
    exact push_ne_empty _ _

theorem TrimSpace_head (l : String) :
    TrimSpace l = "" ∨ ∃ c cs, (TrimSpace l).data = c :: cs ∧ isSpace c = false := by
  have hpre : (TrimSpace l).data <+: l.data.dropWhile isSpace :=
    List.rdropWhile_prefix isSpace (l.data.dropWhile isSpace)
  cases ht : (TrimSpace l).data with
  | nil =>
    left
    exact String.ext ht
  | cons c cs =>
    right
    refine ⟨c, cs, rfl, ?_⟩
    rw [ht] at hpre
    obtain ⟨r, hr⟩ := hpre
    have hh := List.head?_dropWhile_not isSpace l.data
    rw [← hr] at hh
    simpa using hh

theorem tokenizeLine_backslash : tokenizeLine "\\" = [] := by decide

theorem lexLine_length (l : String) :
    (lexLine [] l).length = if isTokenLine l = true then 1 else 0 := by
  unfold lexLine
  simp only []
  by_cases h1 : TrimSpace l = "" ∨ HasPrefix (TrimSpace l) "#" = true
  · rw [if_pos h1]
    have : isTokenLine l = false := by
      rcases h1 with h | h <;> simp [isTokenLine, isCodeLine, h]
    simp [this]
  · rw [if_neg h1]
    rw [not_or] at h1
    by_cases h2 : TrimSpace l = "\\"
    · have : isTokenLine l = false := by simp [isTokenLine, h2]
      rw [h2, tokenizeLine_backslash]
      simp [this]
    · have htok : isTokenLine l = true := by
        simp [isTokenLine, isCodeLine, h1.1, h1.2, h2]
      rw [if_pos htok]
      rcases TrimSpace_head l with h | ⟨c, cs, hd, hc⟩
      · exact absurd h h1.1
      · have hne : ¬ (c = '\\' ∧ cs = []) := by
          rintro ⟨rfl, rfl⟩
          exact h2 (String.ext hd)
        have ht := tokenizeLine_ne_nil c cs hc hne
        have he : TrimSpace l = ⟨c :: cs⟩ := String.ext hd
        rw [← he] at ht
        cases hx : tokenizeLine (TrimSpace l) with
        | nil => exact absurd hx ht
        | cons a as => simp

theorem foldl_lexLine_length (ls : List String) :
    (ls.foldl lexLine []).length = (ls.filter isTokenLine).length := by
  induction ls with
  | nil => rfl
  | cons l ls ih =>
    rw [List.foldl_cons, foldl_lexLine_acc, List.length_append, ih, lexLine_length,
      List.filter_cons]
    split_ifs
    · simp
      omega
    · simp

theorem processToken_frame (s s1 : GenState) (t : Token) (h : processToken s t = some s1) :
    s.output <+: s1.output ∧ s.additionalCode <+: s1.additionalCode ∧
      (t.Command ∈ topLevelCommands → s1.output = s.output) ∧
      (t.Command ∈ mainBodyCommands → s1.additionalCode = s.additionalCode) ∧
      (t.Command = "import" → s1.output = s.output ∧ s1.additionalCode = s.additionalCode) ∧
      (t.Command ≠ "struct" → t.Command ≠ "endstruct" → s1.currentStruct = s.currentStruct) := by
  obtain ⟨cmd, args⟩ := t
  by_cases hm : cmd ∈ commands
  · simp only [commands, List.mem_cons, List.mem_singleton, List.not_mem_nil, or_false] at hm
    rcases hm with rfl | rfl | rfl | rfl | rfl | rfl | rfl | rfl | rfl | rfl | rfl | rfl | rfl |
      rfl | rfl | rfl | rfl | rfl | rfl | rfl | rfl | rfl | rfl | rfl | rfl | rfl | rfl | rfl <;>
    simp only [processToken, String.reduceEq, if_false, if_true] at h <;>
    (try split at h) <;> (try split at h) <;> (try split at h) <;>
    first
      | (injection h with h; subst h; simp [topLevelCommands, mainBodyCommands]; done)
      | (exact absurd h (by simp))
  · simp only [commands, List.mem_cons, List.mem_singleton, List.not_mem_nil, or_false,
      not_or] at hm
    simp [processToken, hm] at h
    subst h
    simp [topLevelCommands, mainBodyCommands, hm]

theorem isPrefix_drop (a b : List String) (n : Nat) (h : a <+: b) : a.drop n <+: b.drop n := by
  obtain ⟨r, rfl⟩ := h
  rw [List.drop_append_eq_append_drop]
  exact List.prefix_append _ _

theorem contains_typeKeywords (a : String) : typeKeywords.contains a = isType a := by
  rw [Bool.eq_iff_iff, isType_iff]
  simp

theorem processToken_none_iff (s : GenState) (t : Token) :
    processToken s t = none ↔ lonelyReceiver t = true := by
  obtain ⟨cmd, args⟩ := t
  by_cases hm : cmd ∈ commands
  · simp only [commands, List.mem_cons, List.mem_singleton, List.not_mem_nil, or_false] at hm
    rcases hm with rfl | rfl | rfl | rfl | rfl | rfl | rfl | rfl | rfl | rfl | rfl | rfl | rfl |
      rfl | rfl | rfl | rfl | rfl | rfl | rfl | rfl | rfl | rfl | rfl | rfl | rfl | rfl | rfl <;>
    simp only [processToken, lonelyReceiver, String.reduceEq, if_false, if_true,
      beq_self_eq_true, Bool.true_and, Bool.false_and, beq_iff_eq, Bool.false_eq_true] <;>
    (try split) <;> (try split) <;> (try split) <;> simp_all
  · simp only [commands, List.mem_cons, List.mem_singleton, List.not_mem_nil, or_false,
      not_or] at hm
    simp [processToken, lonelyReceiver, hm]

theorem mem_typeKeywords_iff (a : String) : a ∈ typeKeywords ↔ isType a = true :=
  (isType_iff a).symm

theorem processToken_output_length (s s1 : GenState) (t : Token)
    (h : processToken s t = some s1) :
    s.output.length ≤ s1.output.length ∧
      (s.output.length < s1.output.length ↔ appendsMain t = true) := by
  obtain ⟨cmd, args⟩ := t
  by_cases hm : cmd ∈ commands
  · simp only [commands, List.mem_cons, List.mem_singleton, List.not_mem_nil, or_false] at hm
    rcases hm with rfl | rfl | rfl | rfl | rfl | rfl | rfl | rfl | rfl | rfl | rfl | rfl | rfl |
      rfl | rfl | rfl | rfl | rfl | rfl | rfl | rfl | rfl | rfl | rfl | rfl | rfl | rfl | rfl <;>
    simp only [processToken, String.reduceEq, if_false, if_true] at h <;>
    (try split at h) <;> (try split at h) <;> (try split at h) <;>
    first
      | (injection h with h; subst h
         simp_all [appendsMain, mem_typeKeywords_iff]; done)
      | (injection h with h; subst h
         rcases args with _ | ⟨a, _ | ⟨b, r⟩⟩ <;> simp_all [appendsMain, mem_typeKeywords_iff]
         done)
      | (exact absurd h (by simp))
  · simp only [commands, List.mem_cons, List.mem_singleton, List.not_mem_nil, or_false,
      not_or] at hm
    simp [processToken, hm] at h
    subst h
    simp [appendsMain, hm]

theorem processTokens_none_iff (s : GenState) (ts : List Token) :
    processTokens s ts = none ↔ ∃ t ∈ ts, lonelyReceiver t = true := by
  induction ts generalizing s with
  | nil => simp [processTokens]
  | cons t ts ih =>
    simp only [processTokens, List.mem_cons, exists_eq_or_imp]
    cases h1 : processToken s t with
    | none =>
      simp [(processToken_none_iff s t).1 h1]
    | some s1 =>
      have hl : lonelyReceiver t ≠ true := by
        intro hc
        rw [(processToken_none_iff s t).2 hc] at h1
        exact absurd h1 (by simp)
      simp [ih s1, hl]

theorem processTokens_output_length (s s1 : GenState) (ts : List Token)
    (h : processTokens s ts = some s1) :
    s.output.length ≤ s1.output.length ∧
      (s.output.length < s1.output.length ↔ ∃ t ∈ ts, appendsMain t = true) := by
  induction ts generalizing s with
  | nil =>
    simp only [processTokens, Option.some.injEq] at h
    subst h
    simp
  | cons t ts ih =>
    simp only [processTokens] at h
    cases h1 : processToken s t with
    | none => simp [h1] at h
    | some s2 =>
      rw [h1] at h
      obtain ⟨ha, hb⟩ := processToken_output_length s s2 t h1
      obtain ⟨hc, hd⟩ := ih s2 h
      refine ⟨le_trans ha hc, ?_⟩
      simp only [List.mem_cons, exists_eq_or_imp]
      rw [← hb, ← hd]
      omega

theorem assemble_isSome (keys : List String) (s : GenState) :
    (assemble keys s).isSome = true ↔ 4 ≤ s.output.length := by
  unfold assemble
  rcases hs : s.output with _ | ⟨a, _ | ⟨b, _ | ⟨c, _ | ⟨d, r⟩⟩⟩⟩ <;> simp [List.set]

theorem appendsMain_nonBody (t : Token) (h : t.Command ∈ nonBodyCommands) :
    appendsMain t = false := by
  obtain ⟨cmd, args⟩ := t
  simp only [nonBodyCommands, List.mem_cons, List.mem_singleton, List.not_mem_nil,
    or_false] at h
  rcases h with rfl | rfl | rfl | rfl | rfl | rfl | rfl | rfl <;> simp [appendsMain]

theorem CompileWith_isSome_iff (order : List String → List String) (ts : List Token) :
    (CompileWith order ts).isSome = true ↔
      (∃ t ∈ ts, appendsMain t = true) ∧ (∀ t ∈ ts, lonelyReceiver t = false) := by
  unfold CompileWith
  cases h : processTokens GenState.init ts with
  | none =>
    obtain ⟨t, ht, hl⟩ := (processTokens_none_iff GenState.init ts).1 h
    simp only [Option.isSome_none, Bool.false_eq_true, false_iff, not_and]
    intro _ hall
    rw [hall t ht] at hl
    exact absurd hl (by simp)
  | some s =>
    have hno : ∀ t ∈ ts, lonelyReceiver t = false := by
      intro t ht
      by_contra hc
      have hl : lonelyReceiver t = true := by simpa using hc
      have := (processTokens_none_iff GenState.init ts).2 ⟨t, ht, hl⟩
      rw [this] at h
      exact absurd h (by simp)
    obtain ⟨_, hb⟩ := processTokens_output_length GenState.init s ts h
    have h3 : GenState.init.output.length = 3 := rfl
    simp only []
    rw [assemble_isSome, ← hb, h3]
    constructor
    · intro h4
      exact ⟨by omega, hno⟩
    · rintro ⟨h4, _⟩
      omega

theorem processTokens_output_prefix (s s1 : GenState) (ts : List Token)
    (h : processTokens s ts = some s1) : s.output <+: s1.output := by
  induction ts generalizing s with
  | nil =>
    simp only [processTokens, Option.some.injEq] at h
    exact h ▸ List.prefix_refl _
  | cons t ts ih =>
    simp only [processTokens] at h
    cases h1 : processToken s t with
    | none => simp [h1] at h
    | some s2 =>
      rw [h1] at h
      exact List.IsPrefix.trans (processToken_frame s s2 t h1).1 (ih s2 h)

theorem processTokens_init_output (s : GenState) (ts : List Token)
    (h : processTokens GenState.init ts = some s) :
    s.output = "package main" :: "" :: "import (" :: s.mainBody := by
  obtain ⟨r, hr⟩ := processTokens_output_prefix GenState.init s ts h
  rw [GenState.mainBody, ← hr]
  rfl

theorem assemble_header (keys : List String) (s : GenState) (first : String)
    (rest : List String)
    (h : s.output = "package main" :: "" :: "import (" :: first :: rest) :
    assemble keys s =
      some (Join (["package main", "", Join (keys.map importEntry) "\n", first] ++
        s.additionalCode ++ ["func main() \x7b"] ++ rest ++ ["\x7d"]) "\n") := by
  unfold assemble
  rw [h, importList_eq_map]
  rfl

theorem assemble_header_empty (keys : List String) (s : GenState)
    (h : s.output = ["package main", "", "import ("]) : assemble keys s = none := by
  unfold assemble
  rw [h]
  rfl

theorem SplitLines_Join (ls : List String) (hne : ls ≠ [])
    (h : ∀ l ∈ ls, '\n' ∉ l.data) : SplitLines (Join ls "\n") = ls := by
  induction ls with
  | nil => exact absurd rfl hne
  | cons a rest ih =>
    have ha : '\n' ∉ a.data := h a (List.mem_cons_self a rest)
    cases rest with
    | nil =>
      simp [Join, SplitLines, splitNewline_no_newline _ ha]
    | cons b rest2 =>
      have hn : ("\n" : String).data = ['\n'] := rfl
      have ih2 := ih (by simp) (fun l hl => h l (List.mem_cons_of_mem a hl))
      unfold SplitLines at ih2 ⊢
      rw [Join, String.data_append, String.data_append, hn, List.append_assoc,
        List.singleton_append, splitNewline_append, List.map_append, ih2,
        splitNewline_no_newline _ ha]
      simp

theorem importEntry_no_newline (p : String) (h : '\n' ∉ p.data) :
    '\n' ∉ (importEntry p).data := by
  have h1 : ("\t\"" : String).data = ['\t', '"'] := rfl
  have h2 : ("\"" : String).data = ['"'] := rfl
  simp only [importEntry, String.data_append, h1, h2, List.mem_append, List.mem_cons,
    List.mem_singleton, List.not_mem_nil, or_false, not_or]
  exact ⟨⟨⟨by decide, by decide⟩, h⟩, by decide⟩

/-! ## Properties -/

/-- C1 (evaluation at the failing input): for the tokens of `let x int 5` / `print x`,
`Compile` returns a text whose lines are the header, the blank line, the import entry, then
the first main-body line `\tvar x int = 5`, and only then `func main() {`, the remaining
main-body line and `}`: the first emitted main-body line stands before the entry-point
opening line, not after it. -/
theorem Compile_roundtrip_lines :
    Compile (Lex "let x int 5\nprint x") =
        some "package main\n\n\t\"fmt\"\n\tvar x int = 5\nfunc main() \x7b\n\tfmt.Println(x)\n\x7d" ∧
      SplitLines "package main\n\n\t\"fmt\"\n\tvar x int = 5\nfunc main() \x7b\n\tfmt.Println(x)\n\x7d" =
        ["package main", "", "\t\"fmt\"", "\tvar x int = 5", "func main() \x7b",
          "\tfmt.Println(x)", "\x7d"] := by
  decide

/-- C2 (evaluation at the failing inputs): on the empty token sequence the final assembly of
`Compile` reads `output[3]` of a three-element slice and faults, whatever the visiting order
of the import map; and a `func` token whose only argument starts with `(` faults in the
receiver branch at `funcParts[1]`, also when main-body lines were emitted before it. -/
theorem Compile_faults :
    (∀ order : List String → List String, CompileWith order [] = none) ∧
      Compile [] = none ∧
      (∀ order : List String → List String,
        CompileWith order [⟨"print", ["x"]⟩, ⟨"func", ["(r"]⟩] = none) := by
  refine ⟨fun order => rfl, rfl, fun order => rfl⟩

/-- C3: for every list of words, each either (a) a non-empty text without space, tab,
quote, bracket or backslash, or (b) a quote character, a text containing neither that quote
nor a backslash, and the same quote again, or (c) `[`, a text without quote, bracket or
backslash, and `]`, `tokenizeLine` applied to the words joined by single spaces returns
exactly the list of words. E.g. `let x int [1 2 3]` gives `let`, `x`, `int`, `[1 2 3]`. -/
theorem tokenizeLine_words (ws : List String) (h : ∀ w ∈ ws, isWord w = true) :
    tokenizeLine (Join ws " ") = ws ∧
      tokenizeLine "let x int [1 2 3]" = ["let", "x", "int", "[1 2 3]"] := by
  refine ⟨?_, by decide⟩
  have h1 := scan_words [] ws h
  simpa [tokenizeLine, LineState.init] using h1

/-- Witness of `tokenizeLine_words`: a plain word, a quoted span holding a space, the other
quote and a bracket, and a bracketed span holding a space and a tab. -/
theorem tokenizeLine_words_witness :
    tokenizeLine (Join ["set", "'it s \" [ok'", "[1 2\t3]"] " ") =
      ["set", "'it s \" [ok'", "[1 2\t3]"] :=
  (tokenizeLine_words ["set", "'it s \" [ok'", "[1 2\t3]"] (by decide)).1

/-- C4: for every character `c` and all texts `u`, `v` without space, tab, quote, bracket or
backslash, `tokenizeLine` applied to `u`, a backslash, `c`, `v` returns exactly the one token
`u c v`: the backslash is dropped, `c` is kept and neither splits the token nor changes the
quote or bracket state (after the scan no token is completed yet, no quote and no bracket
is open and no escape is pending). `Lex` applied to the line `print "a\ b"` returns one token
with command `print` and the single argument `"a b"`, which contains a space. -/
theorem escape_keeps_char (u v : String) (c : Char) (hu : isPlainText u.data = true)
    (hv : isPlainText v.data = true) :
    tokenizeLine (u ++ "\\" ++ String.singleton c ++ v) = [u ++ String.singleton c ++ v] ∧
      (u ++ "\\" ++ String.singleton c ++ v).data.foldl scanChar LineState.init =
        { tokens := [], currentToken := u ++ String.singleton c ++ v, inQuote := noQuote,
          inBracket := 0, escape := false } ∧
      Lex "print \"a\\ b\"" = [⟨"print", ["\"a b\""]⟩] ∧
      ' ' ∈ ("\"a b\"" : String).data := by
  exact ⟨tokenizeLine_escape u v c hu hv, scan_escape u v c hu hv, by decide, by decide⟩

/-- Witness of `escape_keeps_char`: an escaped space between `a` and `b` stays in the one
token `a b`. -/
theorem escape_keeps_char_witness :
    tokenizeLine ("a" ++ "\\" ++ String.singleton ' ' ++ "b") =
      ["a" ++ String.singleton ' ' ++ "b"] :=
  (escape_keeps_char "a" "b" ' ' (by decide) (by decide)).1

/-- C5: a newline-free line that is empty once its leading white space is removed, or whose
first character after the leading white space is `#`, gives no token, and inserting it at any
position among the lines leaves the output of `Lex` on the lines joined by newlines
unchanged. -/
theorem skip_line (pre post : List String) (l : String) (hnl : '\n' ∉ l.data)
    (hskip : l.data.dropWhile isSpace = [] ∨ (l.data.dropWhile isSpace).head? = some '#') :
    Lex l = [] ∧ Lex (Join (pre ++ [l] ++ post) "\n") = Lex (Join (pre ++ post) "\n") :=
  ⟨Lex_skip_line l hnl hskip, Lex_Join_insert pre post l (Lex_skip_line l hnl hskip)⟩

/-- Witness of `skip_line`: the comment line `  # note` between `let x 1` and `print x`. -/
theorem skip_line_witness :
    Lex "  # note" = [] ∧
      Lex (Join (["let x 1"] ++ ["  # note"] ++ ["print x"]) "\n") =
        Lex (Join (["let x 1"] ++ ["print x"]) "\n") :=
  skip_line ["let x 1"] ["print x"] "  # note" (by decide) (by decide)

/-- C6: a `func` token whose arguments are a name not starting with `(`, then parameter
words none of which is `->` (given as `(name, type)` pairs with an optional unpaired last
word), appends exactly one top-level line `func name(q1 q2, q3 q4, ...) {`; with `->` and one
non-empty return-type word `r` after the parameter words the line is
`func name(q1 q2, q3 q4, ...) r {`. The unpaired last word is dropped and nothing else of the
state changes. The tokens of `func add a int b int -> int`, `return a + b`, `endfunc` append
exactly the three top-level lines `func add(a int, b int) int {`, `\treturn a + b`, `}` and
leave `output` (hence the main body) unchanged. -/
theorem func_rule (s : GenState) (name r : String) (ps : List (String × String))
    (d : Option String) (hname : name.data.head? ≠ some '(')
    (hq : "->" ∉ paramWords ps ++ d.toList) :
    processToken s ⟨"func", name :: (paramWords ps ++ d.toList)⟩ =
        some (s.emitTop ("func " ++ name ++ "(" ++ paramText ps ++ ") \x7b")) ∧
      (r ≠ "" →
        processToken s ⟨"func", name :: (paramWords ps ++ d.toList ++ ["->", r])⟩ =
          some (s.emitTop ("func " ++ name ++ "(" ++ paramText ps ++ ") " ++ r ++ " \x7b"))) ∧
      processTokens s (Lex "func add a int b int -> int\nreturn a + b\nendfunc") =
        some { imports := s.imports,
               output := s.output,
               additionalCode := s.additionalCode ++
                 ["func add(a int, b int) int \x7b", "\treturn a + b", "\x7d"],
               currentStruct := s.currentStruct } := by
  have hp := HasPrefix_paren name hname
  have e1 : (") \x7b" : String) = ")" ++ " \x7b" := rfl
  have e2 : (") " : String) = ")" ++ " " := rfl
  refine ⟨?_, fun hr => ?_, ?_⟩
  · simp [processToken, hp, funcHeader, scanArrow_no_arrow _ hq, pairParams_paramWords,
      GenState.emitTop, paramText, e1, String.append_assoc]
  · have hs := scanArrow_arrow _ r hq
    rw [List.append_assoc] at hs
    simp [processToken, hp, funcHeader, hs, pairParams_paramWords,
      GenState.emitTop, paramText, String.append_assoc, hr]
    rw [e2, String.append_assoc]
  · have hl : Lex "func add a int b int -> int\nreturn a + b\nendfunc" =
        [⟨"func", ["add", "a", "int", "b", "int", "->", "int"]⟩,
         ⟨"return", ["a", "+", "b"]⟩, ⟨"endfunc", []⟩] := by decide
    have h1 : ∀ s0 : GenState,
        processToken s0 ⟨"func", ["add", "a", "int", "b", "int", "->", "int"]⟩ =
          some (s0.emitTop "func add(a int, b int) int \x7b") := fun _ => rfl
    have h2 : ∀ s0 : GenState, processToken s0 ⟨"return", ["a", "+", "b"]⟩ =
        some (s0.emitTop "\treturn a + b") := fun _ => rfl
    have h3 : ∀ s0 : GenState, processToken s0 ⟨"endfunc", []⟩ = some (s0.emitTop "\x7d") :=
      fun _ => rfl
    rw [hl]
    simp [processTokens, h1, h2, h3, GenState.emitTop]

/-- Witness of `func_rule`: `func area w float64 h float64 extra` and the same with
`-> float64`, from the initial state. -/
theorem func_rule_witness :
    processToken GenState.init ⟨"func", ["area", "w", "float64", "h", "float64", "extra"]⟩ =
        some (GenState.init.emitTop "func area(w float64, h float64) \x7b") ∧
      processToken GenState.init
          ⟨"func", ["area", "w", "float64", "h", "float64", "extra", "->", "float64"]⟩ =
        some (GenState.init.emitTop "func area(w float64, h float64) float64 \x7b") :=
  ⟨(func_rule GenState.init "area" "float64" [("w", "float64"), ("h", "float64")]
      (some "extra") (by decide) (by decide)).1,
   (func_rule GenState.init "area" "float64" [("w", "float64"), ("h", "float64")]
      (some "extra") (by decide) (by decide)).2.1 (by decide)⟩

/-- C7: a `let` token `name ty v1 ... vk` (k ≥ 1) with `ty` one of the nine type keywords
appends exactly the main-body line `\tvar name ty = v1 ... vk`; a `let` token with at least two
arguments whose second argument is not a type keyword appends exactly the main-body line
`\tname := ` followed by the arguments after the name joined by single spaces. Nothing else
of the state changes. `let x int 5` gives `\tvar x int = 5` and `let y 5` gives `\ty := 5`. -/
theorem let_rule (s : GenState) (name a1 v : String) (vs rest : List String) :
    (a1 ∈ typeKeywords →
        processToken s ⟨"let", name :: a1 :: v :: vs⟩ =
          some (s.emitMain ("\tvar " ++ name ++ " " ++ a1 ++ " = " ++ Join (v :: vs) " "))) ∧
      (a1 ∉ typeKeywords →
        processToken s ⟨"let", name :: a1 :: rest⟩ =
          some (s.emitMain ("\t" ++ name ++ " := " ++ Join (a1 :: rest) " "))) ∧
      processTokens s (Lex "let x int 5") = some (s.emitMain "\tvar x int = 5") ∧
      processTokens s (Lex "let y 5") = some (s.emitMain "\ty := 5") := by
  refine ⟨fun h => ?_, fun h => ?_, ?_, ?_⟩
  · have ht : isType a1 = true := (isType_iff a1).2 h
    simp [processToken, ht, GenState.emitMain]
  · have ht : isType a1 = false := by
      rw [Bool.eq_false_iff]
      exact fun hc => h ((isType_iff a1).1 hc)
    simp [processToken, ht, GenState.emitMain]
  · have hl : Lex "let x int 5" = [⟨"let", ["x", "int", "5"]⟩] := by decide
    rw [hl]
    rfl
  · have hl : Lex "let y 5" = [⟨"let", ["y", "5"]⟩] := by decide
    rw [hl]
    rfl

/-- Witness of `let_rule`: both branches at concrete tokens, `let total float64 1 + 2` and
`let msg "hi" there`, from the initial state. -/
theorem let_rule_witness :
    processToken GenState.init ⟨"let", ["total", "float64", "1", "+", "2"]⟩ =
        some (GenState.init.emitMain "\tvar total float64 = 1 + 2") ∧
      processToken GenState.init ⟨"let", ["msg", "\"hi\"", "there"]⟩ =
        some (GenState.init.emitMain "\tmsg := \"hi\" there") :=
  ⟨(let_rule GenState.init "total" "float64" "1" ["+", "2"] []).1 (by decide),
   (let_rule GenState.init "msg" "\"hi\"" "" [] ["there"]).2.1 (by decide)⟩

/-- C8: for a non-empty struct name `S` and field tokens `field f_i t_i1 ... t_ik` with at
least two arguments each, processing `struct S`, the field tokens in order, then `endstruct`
appends to the top-level buffer exactly `type S struct {`, one line `\tf_i t_i1 ... t_ik` per
field in order, then `}`; the main body (`output`) and the import set are unchanged and the
struct context is empty afterwards. This holds from every state, in particular from one with
no open struct. -/
theorem struct_block (s : GenState) (S : String) (hS : S ≠ "")
    (fields : List (String × String × List String)) :
    processTokens s ([⟨"struct", [S]⟩] ++ fields.map fieldToken ++ [⟨"endstruct", []⟩]) =
      some { imports := s.imports,
             output := s.output,
             additionalCode :=
               s.additionalCode ++ ["type " ++ S ++ " struct \x7b"] ++ fields.map fieldLine ++ ["\x7d"],
             currentStruct := "" } := by
  have h1 : processToken s ⟨"struct", [S]⟩ =
      some { s with currentStruct := S,
                    additionalCode := s.additionalCode ++ ["type " ++ S ++ " struct \x7b"] } := by
    simp [processToken]
  rw [List.append_assoc, processTokens_append]
  simp only [processTokens, h1, Option.bind]
  rw [processTokens_append, processTokens_fields _ hS]
  simp [processTokens, processToken, hS]

/-- Witness of `struct_block`: `struct Point`, `field x int`, `field tags [] string`,
`endstruct` from the initial state. -/
theorem struct_block_witness :
    processTokens GenState.init
        [⟨"struct", ["Point"]⟩, ⟨"field", ["x", "int"]⟩, ⟨"field", ["tags", "[]", "string"]⟩,
          ⟨"endstruct", []⟩] =
      some { imports := ["fmt"],
             output := ["package main", "", "import ("],
             additionalCode := ["type Point struct \x7b", "\tx int", "\ttags [] string", "\x7d"],
             currentStruct := "" } :=
  struct_block GenState.init "Point" (by decide) [("x", "int", []), ("tags", "[]", ["string"])]

/-- C9: the struct context is empty in the initial generation state; from every state,
whenever a token sequence is processed without fault, processing it followed by `endstruct`
also succeeds and every state so reached has an empty struct context; and in every state with
an empty struct context a `field` token with any argument list leaves the whole state (main
body, top-level buffer, import set, struct context) unchanged. -/
theorem struct_context_empty :
    GenState.init.currentStruct = "" ∧
      (∀ (s s1 : GenState) (ts : List Token) (args : List String),
        processTokens s ts = some s1 →
          ∃ s2, processTokens s (ts ++ [⟨"endstruct", args⟩]) = some s2) ∧
      (∀ (s s2 : GenState) (ts : List Token) (args : List String),
        processTokens s (ts ++ [⟨"endstruct", args⟩]) = some s2 → s2.currentStruct = "") ∧
      (∀ (s : GenState) (args : List String),
        s.currentStruct = "" → processToken s ⟨"field", args⟩ = some s) := by
  refine ⟨rfl, ?_, ?_, ?_⟩
  · intro s s1 ts args h
    obtain ⟨s2, h2, -⟩ := processToken_endstruct s1 args
    exact ⟨s2, by simp [processTokens_append, h, processTokens, h2]⟩
  · intro s s2 ts args h
    rw [processTokens_append] at h
    cases h1 : processTokens s ts with
    | none => simp [h1] at h
    | some s1 =>
      obtain ⟨s3, h3, h4⟩ := processToken_endstruct s1 args
      simp [h1, processTokens, h3] at h
      rw [← h]
      exact h4
  · intro s args h
    simp [processToken, h]

/-- Witness of `struct_context_empty`: after `struct A`, `print x`, `endstruct` from the
initial state the struct context is empty, and a `field` token in the initial state changes
nothing. -/
theorem struct_context_empty_witness :
    (∃ s2, processTokens GenState.init
        ([⟨"struct", ["A"]⟩, ⟨"print", ["x"]⟩] ++ [⟨"endstruct", []⟩]) = some s2) ∧
      ({ imports := ["fmt"], output := ["package main", "", "import (", "\tfmt.Println(x)"],
         additionalCode := ["type A struct \x7b", "\x7d"], currentStruct := "" } : GenState).currentStruct
        = "" ∧
      processToken GenState.init ⟨"field", ["x", "int"]⟩ = some GenState.init :=
  ⟨struct_context_empty.2.1 GenState.init
      { imports := ["fmt"], output := ["package main", "", "import (", "\tfmt.Println(x)"],
        additionalCode := ["type A struct \x7b"], currentStruct := "A" }
      [⟨"struct", ["A"]⟩, ⟨"print", ["x"]⟩] [] (by decide),
   struct_context_empty.2.2.1 GenState.init _ [⟨"struct", ["A"]⟩, ⟨"print", ["x"]⟩] []
      (by decide),
   struct_context_empty.2.2.2 GenState.init ["x", "int"] (by decide)⟩

/-- C10: processing a token sequence gives the same result (import set and all the rest of
the state) as processing it with every `import p` token after the first one removed, so
the import set is the same whether `import p` occurs once or is repeated. When processing from
the initial state succeeds, then for every order `keys` in which the import map is visited
the list of import-block entries contains the entry `\t"q"` exactly once if `q` is `fmt` or
is imported by some token of the sequence, and not at all otherwise; in particular `\t"fmt"`
occurs exactly once whether or not `fmt` is imported explicitly. The text `Compile` returns
with that visiting order carries, after `package main` and the blank line, exactly these
entries joined by newlines as its import block (and `Compile` faults when no main-body line
was emitted); when no package name holds a newline, the lines of that block are the entries
themselves, so the line `\t"q"` stands in the block once for an imported `q` or `fmt` and
never otherwise. -/
theorem import_idempotent (ts : List Token) (p : String) (s : GenState) (keys : List String)
    (h : processTokens GenState.init ts = some s) (hk : keys.Perm s.imports) :
    (∀ s0 : GenState, processTokens s0 (keepFirstImport p ts) = processTokens s0 ts) ∧
      processTokens GenState.init (keepFirstImport p ts) = some s ∧
      (∀ q : String, (importList keys).count (importEntry q) =
        if q = "fmt" ∨ ∃ t ∈ ts, isImportOf q t = true then 1 else 0) ∧
      (importList keys).count "\t\"fmt\"" = 1 ∧
      (∀ (order : List String → List String) (first : String) (rest : List String),
        order s.imports = keys → s.mainBody = first :: rest →
          CompileWith order ts =
            some (Join (["package main", "", Join (keys.map importEntry) "\n", first] ++
              s.additionalCode ++ ["func main() \x7b"] ++ rest ++ ["\x7d"]) "\n")) ∧
      (∀ order : List String → List String, s.mainBody = [] → CompileWith order ts = none) ∧
      ((∀ k ∈ keys, '\n' ∉ k.data) →
        SplitLines (Join (keys.map importEntry) "\n") = keys.map importEntry ∧
        ∀ q : String, (SplitLines (Join (keys.map importEntry) "\n")).count (importEntry q) =
          if q = "fmt" ∨ ∃ t ∈ ts, isImportOf q t = true then 1 else 0) := by
  have hn : s.imports.Nodup :=
    processTokens_nodup_imports GenState.init s ts h (by decide)
  have hcount : ∀ q : String, (importList keys).count (importEntry q) =
      if q = "fmt" ∨ ∃ t ∈ ts, isImportOf q t = true then 1 else 0 := by
    intro q
    rw [importList_eq_map, List.count_map_of_injective _ _ importEntry_injective,
      hk.count_eq]
    have hmem := processTokens_mem_imports GenState.init s ts q h
    have hinit : q ∈ GenState.init.imports ↔ q = "fmt" := by
      simp [GenState.init]
    rw [hinit] at hmem
    by_cases hq : q = "fmt" ∨ ∃ t ∈ ts, isImportOf q t = true
    · rw [if_pos hq]
      exact List.count_eq_one_of_mem hn (hmem.2 hq)
    · rw [if_neg hq]
      exact List.count_eq_zero_of_not_mem (fun hc => hq (hmem.1 hc))
  have hout := processTokens_init_output s ts h
  refine ⟨fun s0 => processTokens_keepFirstImport s0 ts p, ?_, hcount, ?_, ?_, ?_, ?_⟩
  · rw [processTokens_keepFirstImport, h]
  · have h1 := hcount "fmt"
    simpa [importEntry] using h1
  · intro order first rest ho hb
    rw [hb] at hout
    simp only [CompileWith, h, ho]
    exact assemble_header keys s first rest hout
  · intro order hb
    rw [hb] at hout
    simp only [CompileWith, h]
    exact assemble_header_empty _ s hout
  · intro hnl
    have hfmt : "fmt" ∈ keys :=
      hk.mem_iff.2 ((processTokens_mem_imports GenState.init s ts "fmt" h).2
        (Or.inl (by simp [GenState.init])))
    have hne : keys.map importEntry ≠ [] := by
      intro hc
      rw [List.map_eq_nil_iff] at hc
      rw [hc] at hfmt
      exact absurd hfmt (List.not_mem_nil _)
    have hsplit : SplitLines (Join (keys.map importEntry) "\n") = keys.map importEntry := by
      apply SplitLines_Join _ hne
      intro l hl
      obtain ⟨k, hkm, rfl⟩ := List.mem_map.1 hl
      exact importEntry_no_newline k (hnl k hkm)
    refine ⟨hsplit, fun q => ?_⟩
    rw [hsplit, ← importList_eq_map]
    exact hcount q

/-- Witness of `import_idempotent`: `import os`, `print x`, `import os`, `import fmt` with
the import map visited in the order `os`, `fmt`: the state after processing, the text that
`Compile` returns, and the lines of its import block. -/
theorem import_idempotent_witness :
    processTokens GenState.init
        (keepFirstImport "os"
          [⟨"import", ["os"]⟩, ⟨"print", ["x"]⟩, ⟨"import", ["os"]⟩, ⟨"import", ["fmt"]⟩]) =
        some { imports := ["fmt", "os"],
               output := ["package main", "", "import (", "\tfmt.Println(x)"],
               additionalCode := [],
               currentStruct := "" } ∧
      (importList ["os", "fmt"]).count "\t\"fmt\"" = 1 ∧
      CompileWith (fun _ => ["os", "fmt"])
          [⟨"import", ["os"]⟩, ⟨"print", ["x"]⟩, ⟨"import", ["os"]⟩, ⟨"import", ["fmt"]⟩] =
        some "package main\n\n\t\"os\"\n\t\"fmt\"\n\tfmt.Println(x)\nfunc main() \x7b\n\x7d" ∧
      SplitLines (Join (["os", "fmt"].map importEntry) "\n") = ["\t\"os\"", "\t\"fmt\""] :=
  ⟨(import_idempotent
      [⟨"import", ["os"]⟩, ⟨"print", ["x"]⟩, ⟨"import", ["os"]⟩, ⟨"import", ["fmt"]⟩] "os"
      { imports := ["fmt", "os"],
        output := ["package main", "", "import (", "\tfmt.Println(x)"],
        additionalCode := [],
        currentStruct := "" }
      ["os", "fmt"] (by decide) (List.Perm.swap "fmt" "os" [])).2.1,
   (import_idempotent
      [⟨"import", ["os"]⟩, ⟨"print", ["x"]⟩, ⟨"import", ["os"]⟩, ⟨"import", ["fmt"]⟩] "os"
      { imports := ["fmt", "os"],
        output := ["package main", "", "import (", "\tfmt.Println(x)"],
        additionalCode := [],
        currentStruct := "" }
      ["os", "fmt"] (by decide) (List.Perm.swap "fmt" "os" [])).2.2.2.1,
   (import_idempotent
      [⟨"import", ["os"]⟩, ⟨"print", ["x"]⟩, ⟨"import", ["os"]⟩, ⟨"import", ["fmt"]⟩] "os"
      { imports := ["fmt", "os"],
        output := ["package main", "", "import (", "\tfmt.Println(x)"],
        additionalCode := [],
        currentStruct := "" }
      ["os", "fmt"] (by decide) (List.Perm.swap "fmt" "os" [])).2.2.2.2.1
      (fun _ => ["os", "fmt"]) "\tfmt.Println(x)" [] rfl rfl,
   ((import_idempotent
      [⟨"import", ["os"]⟩, ⟨"print", ["x"]⟩, ⟨"import", ["os"]⟩, ⟨"import", ["fmt"]⟩] "os"
      { imports := ["fmt", "os"],
        output := ["package main", "", "import (", "\tfmt.Println(x)"],
        additionalCode := [],
        currentStruct := "" }
      ["os", "fmt"] (by decide) (List.Perm.swap "fmt" "os" [])).2.2.2.2.2.2
      (by decide)).1⟩

/-- C11: a token whose command is not one of the 28 commands of the rule table leaves the
generation state unchanged, in every state, so `Compile` gives the same result (the same text
or the same fault) with the token as without it, whatever tokens precede and follow it and
whatever the visiting order of the import map. -/
theorem unknown_command_ignored (t : Token) (h : t.Command ∉ commands) :
    (∀ s : GenState, processToken s t = some s) ∧
      (∀ (ts us : List Token), Compile (ts ++ [t] ++ us) = Compile (ts ++ us)) ∧
      (∀ (order : List String → List String) (ts us : List Token),
        CompileWith order (ts ++ [t] ++ us) = CompileWith order (ts ++ us)) := by
  have h1 : ∀ s : GenState, processToken s t = some s := fun s => processToken_unknown s t h
  have h2 : ∀ (order : List String → List String) (ts us : List Token),
      CompileWith order (ts ++ [t] ++ us) = CompileWith order (ts ++ us) := by
    intro order ts us
    unfold CompileWith
    rw [processTokens_skip t h1]
  exact ⟨h1, fun ts us => h2 id ts us, h2⟩

/-- Witness of `unknown_command_ignored`: the token `echo hi` between `print x` and
`print y`. -/
theorem unknown_command_ignored_witness :
    Compile ([⟨"print", ["x"]⟩] ++ [⟨"echo", ["hi"]⟩] ++ [⟨"print", ["y"]⟩]) =
      Compile ([⟨"print", ["x"]⟩] ++ [⟨"print", ["y"]⟩]) :=
  (unknown_command_ignored ⟨"echo", ["hi"]⟩ (by decide)).2.1 [⟨"print", ["x"]⟩]
    [⟨"print", ["y"]⟩]

/-- C12: a token with too few arguments (`printf`, `func`, `call`, `struct` or `import` with
no argument; `let`, `set`, `field` or `const` with fewer than two arguments; `input` with two
arguments whose second is not a type keyword) leaves the whole generation state unchanged, in
every state, and the tokens around it are processed as if it were absent. -/
theorem malformed_token_skipped (t : Token) (h : isMalformed t = true) :
    (∀ s : GenState, processToken s t = some s) ∧
      (∀ (s : GenState) (ts us : List Token),
        processTokens s (ts ++ [t] ++ us) = processTokens s (ts ++ us)) ∧
      (∀ (order : List String → List String) (ts us : List Token),
        CompileWith order (ts ++ [t] ++ us) = CompileWith order (ts ++ us)) := by
  have h1 : ∀ s : GenState, processToken s t = some s :=
    fun s => processToken_malformed s t h
  refine ⟨h1, fun s ts us => processTokens_skip t h1 s ts us, fun order ts us => ?_⟩
  unfold CompileWith
  rw [processTokens_skip t h1]

/-- Witness of `malformed_token_skipped`: `let x` (one argument) in the initial state, and
`input n word` between two `print` tokens. -/
theorem malformed_token_skipped_witness :
    processToken GenState.init ⟨"let", ["x"]⟩ = some GenState.init ∧
      processTokens GenState.init
          ([⟨"print", ["a"]⟩] ++ [⟨"input", ["n", "word"]⟩] ++ [⟨"print", ["b"]⟩]) =
        processTokens GenState.init ([⟨"print", ["a"]⟩] ++ [⟨"print", ["b"]⟩]) :=
  ⟨(malformed_token_skipped ⟨"let", ["x"]⟩ (by decide)).1 GenState.init,
   (malformed_token_skipped ⟨"input", ["n", "word"]⟩ (by decide)).2.1 GenState.init
     [⟨"print", ["a"]⟩] [⟨"print", ["b"]⟩]⟩

/-- C13 (counterexample): the input `print x`, newline, `\` has two lines that are neither
blank nor comments, but `Lex` returns one token: the line that is a lone backslash yields no
token. -/
theorem Lex_count_counterexample :
    codeLineCount "print x\n\\" = 2 ∧ (Lex "print x\n\\").length = 1 ∧
      Lex "print x\n\\" = [⟨"print", ["x"]⟩] := by
  decide

/-- C13 (amended): for every input text, the number of tokens returned by `Lex` equals the
number of lines of the input (split on newline) that, after trimming white space, are neither
empty, nor begin with `#`, nor consist of a single backslash. -/
theorem Lex_count (input : String) :
    (Lex input).length = ((SplitLines input).filter isTokenLine).length := by
  unfold Lex
  exact foldl_lexLine_length _

/-- C14 (counterexample): for `func f a int -> int error` the header carries the return type
`int` only, not `int error`; and for `func f a ->`, where `->` is the last argument, the
header is `func f(a ->) {`, so the parameter list is not built from the arguments before
`->` alone. -/
theorem func_return_type_counterexample :
    processToken GenState.init ⟨"func", ["f", "a", "int", "->", "int", "error"]⟩ =
        some (GenState.init.emitTop "func f(a int) int \x7b") ∧
      GenState.init.emitTop "func f(a int) int \x7b" ≠
        GenState.init.emitTop "func f(a int) int error \x7b" ∧
      processToken GenState.init ⟨"func", ["f", "a", "->"]⟩ =
        some (GenState.init.emitTop "func f(a ->) \x7b") ∧
      GenState.init.emitTop "func f(a ->) \x7b" ≠ GenState.init.emitTop "func f() \x7b" := by
  decide

/-- C14 (amended): in a `func` token whose first `->` after the function name is followed by
at least one argument, the return type placed in the header is the single (non-empty)
argument right after that `->`, every further argument is ignored, and the parameter list is
built only from the arguments before that `->`, with or without a receiver. When the only
`->` is the last argument it is not a marker: no return type is placed and the arguments,
`->` included, are all paired as parameter words. -/
theorem func_return_type (s : GenState) (name r : String) (qs extra : List String)
    (hname : name.data.head? ≠ some '(') (hq : "->" ∉ qs) :
    (r ≠ "" →
        processToken s ⟨"func", name :: (qs ++ "->" :: r :: extra)⟩ =
          some (s.emitTop
            ("func " ++ name ++ "(" ++ Join (pairParams qs) ", " ++ ") " ++ r ++ " \x7b"))) ∧
      (∀ recv : String, recv.data.head? = some '(' → r ≠ "" →
        processToken s ⟨"func", recv :: name :: (qs ++ "->" :: r :: extra)⟩ =
          some (s.emitTop
            ("func " ++ recv ++ " " ++ name ++ "(" ++ Join (pairParams qs) ", " ++ ") " ++ r ++
              " \x7b"))) ∧
      processToken s ⟨"func", name :: (qs ++ ["->"])⟩ =
        some (s.emitTop
          ("func " ++ name ++ "(" ++ Join (pairParams (qs ++ ["->"])) ", " ++ ") \x7b")) := by
  have hp := HasPrefix_paren name hname
  have e1 : (") \x7b" : String) = ")" ++ " \x7b" := rfl
  have e2 : (") " : String) = ")" ++ " " := rfl
  have hs := scanArrow_arrow_extra qs extra r hq
  refine ⟨fun hr => ?_, fun recv hrecv hr => ?_, ?_⟩
  · simp [processToken, hp, funcHeader, hs, GenState.emitTop, String.append_assoc, hr]
    rw [e2, String.append_assoc]
  · obtain ⟨hp2, hne⟩ := HasPrefix_paren_true recv hrecv
    simp [processToken, hp2, funcHeader, hs, GenState.emitTop, String.append_assoc, hr, hne]
    rw [e2, String.append_assoc]
  · simp [processToken, hp, funcHeader, scanArrow_trailing qs hq, GenState.emitTop, e1,
      String.append_assoc]

/-- Witness of `func_return_type`: `func div a int b int -> int error` and the method form
`func (p Point) div a int b int -> int error`. -/
theorem func_return_type_witness :
    processToken GenState.init ⟨"func", ["div", "a", "int", "b", "int", "->", "int", "error"]⟩ =
        some (GenState.init.emitTop "func div(a int, b int) int \x7b") ∧
      processToken GenState.init
          ⟨"func", ["(p", "div", "a", "int", "b", "int", "->", "int", "error"]⟩ =
        some (GenState.init.emitTop "func (p div(a int, b int) int \x7b") :=
  ⟨(func_return_type GenState.init "div" "int" ["a", "int", "b", "int"] ["error"] (by decide)
      (by decide)).1 (by decide),
   (func_return_type GenState.init "div" "int" ["a", "int", "b", "int"] ["error"] (by decide)
      (by decide)).2.1 "(p" (by decide) (by decide)⟩

/-- C15 (counterexample): in the initial state, where no struct is open, `endstruct` appends
no line at all; and `endtry` appends two lines to the main body, not one. -/
theorem closer_lines_counterexample :
    processToken GenState.init ⟨"endstruct", []⟩ = some GenState.init ∧
      processToken GenState.init ⟨"endtry", []⟩ =
        some { imports := ["fmt"],
               output := ["package main", "", "import (", "\t\t\t\x7d", "\t\t\x7d()"],
               additionalCode := [],
               currentStruct := "" } := by
  decide

/-- C15 (amended): in every state and with any arguments, `end` and `endswitch` each append
exactly the one line `\t}` to the main body and `endfunc` exactly the one line `}` to the top
level; `endstruct` appends exactly the one line `}` to the top level and empties the struct
context when a struct is open, and leaves the state unchanged when none is open; `endtry`
appends closing lines to the main body only, starting with `\t\t\t}` and `\t\t}()`. -/
theorem closer_lines (s : GenState) (args : List String) :
    processToken s ⟨"end", args⟩ = some (s.emitMain "\t\x7d") ∧
      processToken s ⟨"endswitch", args⟩ = some (s.emitMain "\t\x7d") ∧
      processToken s ⟨"endfunc", args⟩ = some (s.emitTop "\x7d") ∧
      (s.currentStruct ≠ "" →
        processToken s ⟨"endstruct", args⟩ =
          some { imports := s.imports, output := s.output,
                 additionalCode := s.additionalCode ++ ["\x7d"], currentStruct := "" }) ∧
      (s.currentStruct = "" → processToken s ⟨"endstruct", args⟩ = some s) ∧
      (∃ more : List String,
        processToken s ⟨"endtry", args⟩ =
          some { imports := s.imports,
                 output := s.output ++ "\t\t\t\x7d" :: "\t\t\x7d()" :: more,
                 additionalCode := s.additionalCode, currentStruct := s.currentStruct }) := by
  refine ⟨rfl, rfl, rfl, fun h => ?_, fun h => ?_, ⟨[], rfl⟩⟩
  · simp [processToken, h]
  · simp [processToken, h]

/-- Witness of `closer_lines`: `endstruct` after `struct A` was opened, and `endstruct` in the
initial state. -/
theorem closer_lines_witness :
    processToken
        { imports := ["fmt"], output := ["package main", "", "import ("],
          additionalCode := ["type A struct \x7b"], currentStruct := "A" }
        ⟨"endstruct", []⟩ =
      some { imports := ["fmt"], output := ["package main", "", "import ("],
             additionalCode := ["type A struct \x7b"] ++ ["\x7d"], currentStruct := "" } ∧
      processToken GenState.init ⟨"endstruct", []⟩ = some GenState.init :=
  ⟨(closer_lines
      { imports := ["fmt"], output := ["package main", "", "import ("],
        additionalCode := ["type A struct \x7b"], currentStruct := "A" } []).2.2.2.1
      (by decide),
   (closer_lines GenState.init []).2.2.2.2.1 rfl⟩

/-- C16: for all texts `a` and `b`, `Lex` of `a`, a newline, `b` is `Lex a` followed by
`Lex b`: no quote, bracket or escape state passes from one line to the next. A line that ends
inside an open quote or an open bracket still gives its accumulated text as a token, and the
line after it is tokenized as on its own. -/
theorem Lex_lines_independent :
    (∀ a b : String, Lex (a ++ "\n" ++ b) = Lex a ++ Lex b) ∧
      Lex "print \"abc def\nlet x [1 2\nset y 3 \\" =
        [⟨"print", ["\"abc def"]⟩, ⟨"let", ["x", "[1 2"]⟩, ⟨"set", ["y", "3"]⟩] ∧
      Lex "set y 3" = [⟨"set", ["y", "3"]⟩] := by
  exact ⟨Lex_append_newline, by decide, by decide⟩

/-- C17 (evaluation at the failing input): for `try`, `print x`, `catch e`, `endtry` the
lines appended to the main body are the three opening lines of `try`, the `print` line, the
two `catch` lines and the two closing lines of `endtry`; they hold three `{` but only two
`}`: the outer `func() {` opened by `try` is never closed nor invoked. The same counts
result for `try` directly followed by `endtry`. -/
theorem try_block_unbalanced :
    (processTokens GenState.init
        [⟨"try", []⟩, ⟨"print", ["x"]⟩, ⟨"catch", ["e"]⟩, ⟨"endtry", []⟩]).map
          GenState.mainBody =
        some ["\tfunc() \x7b", "\t\tdefer func() \x7b",
              "\t\t\tif err := recover(); err != nil \x7b", "\tfmt.Println(x)",
              "\t\t\t\te := err", "\t\t\t\t// Handle error", "\t\t\t\x7d", "\t\t\x7d()"] ∧
      countChar '\x7b'
          ["\tfunc() \x7b", "\t\tdefer func() \x7b",
           "\t\t\tif err := recover(); err != nil \x7b", "\tfmt.Println(x)",
           "\t\t\t\te := err", "\t\t\t\t// Handle error", "\t\t\t\x7d", "\t\t\x7d()"] = 3 ∧
      countChar '\x7d'
          ["\tfunc() \x7b", "\t\tdefer func() \x7b",
           "\t\t\tif err := recover(); err != nil \x7b", "\tfmt.Println(x)",
           "\t\t\t\te := err", "\t\t\t\t// Handle error", "\t\t\t\x7d", "\t\t\x7d()"] = 2 ∧
      (processTokens GenState.init [⟨"try", []⟩, ⟨"endtry", []⟩]).map
          (fun s => (countChar '\x7b' s.mainBody, countChar '\x7d' s.mainBody)) =
        some (3, 2) := by
  decide

/-- C18 (counterexample): `let x int` in the initial state leaves the state unchanged; it does
not append `\tx := int` to the main body. Likewise `const x int` does not append
`const x = int` to the top level. -/
theorem two_arg_typed_counterexample :
    processToken GenState.init ⟨"let", ["x", "int"]⟩ = some GenState.init ∧
      GenState.init ≠ GenState.init.emitMain "\tx := int" ∧
      processToken GenState.init ⟨"const", ["x", "int"]⟩ = some GenState.init ∧
      GenState.init ≠ GenState.init.emitTop "const x = int" := by
  decide

/-- C18 (amended): a `let` token with exactly two arguments whose second argument is a type
keyword is skipped: the typed branch is entered and, fewer than three arguments being present,
nothing is appended and the state is unchanged. The same holds for `const`. -/
theorem two_arg_typed_skipped (s : GenState) (name ty : String) (h : ty ∈ typeKeywords) :
    processToken s ⟨"let", [name, ty]⟩ = some s ∧
      processToken s ⟨"const", [name, ty]⟩ = some s := by
  have ht : isType ty = true := (isType_iff ty).2 h
  constructor <;> simp [processToken, ht]

/-- Witness of `two_arg_typed_skipped`: `let total float64` and `const total float64` in the
initial state. -/
theorem two_arg_typed_skipped_witness :
    processToken GenState.init ⟨"let", ["total", "float64"]⟩ = some GenState.init ∧
      processToken GenState.init ⟨"const", ["total", "float64"]⟩ = some GenState.init :=
  two_arg_typed_skipped GenState.init "total" "float64" (by decide)

/-- C19: whenever a token is processed without fault, the old main body and the old top-level
buffer are prefixes of the new ones; `func`, `endfunc`, `return`, `struct`, `field`,
`endstruct` and `const` leave the main body unchanged; the twenty main-body commands leave the
top-level buffer unchanged; `import` changes neither buffer; only `import` can change the
set of imports and only `struct` and `endstruct` can change the struct context. So `return`
lands in the top-level buffer and a `print` between `func` and `endfunc` lands in the main
body. -/
theorem frame_effect (s s1 : GenState) (t : Token) (h : processToken s t = some s1) :
    s.mainBody <+: s1.mainBody ∧ s.additionalCode <+: s1.additionalCode ∧
      (t.Command ∈ topLevelCommands → s1.mainBody = s.mainBody) ∧
      (t.Command ∈ mainBodyCommands → s1.additionalCode = s.additionalCode) ∧
      (t.Command = "import" → s1.mainBody = s.mainBody ∧ s1.additionalCode = s.additionalCode) ∧
      (t.Command ≠ "import" → s1.imports = s.imports) ∧
      (t.Command ≠ "struct" → t.Command ≠ "endstruct" → s1.currentStruct = s.currentStruct) ∧
      (processTokens GenState.init
          [⟨"func", ["f"]⟩, ⟨"print", ["x"]⟩, ⟨"return", ["x"]⟩, ⟨"endfunc", []⟩]).map
        (fun s2 => (s2.mainBody, s2.additionalCode)) =
        some (["\tfmt.Println(x)"], ["func f() \x7b", "\treturn x", "\x7d"]) := by
  obtain ⟨h1, h2, h3, h4, h5, h6⟩ := processToken_frame s s1 t h
  refine ⟨isPrefix_drop _ _ 3 h1, h2, fun hc => ?_, h4, fun hc => ?_, fun hc => ?_, h6,
    by decide⟩
  · simp [GenState.mainBody, h3 hc]
  · simp [GenState.mainBody, (h5 hc).1, (h5 hc).2]
  · rw [processToken_imports s s1 t h]
    simp [hc]

/-- Witness of `frame_effect`: `return x` processed after `print a` was emitted. -/
theorem frame_effect_witness :
    (GenState.init.emitMain "\tfmt.Println(a)").mainBody <+:
        ((GenState.init.emitMain "\tfmt.Println(a)").emitTop "\treturn x").mainBody ∧
      (GenState.init.emitMain "\tfmt.Println(a)").additionalCode <+:
        ((GenState.init.emitMain "\tfmt.Println(a)").emitTop "\treturn x").additionalCode :=
  ⟨(frame_effect (GenState.init.emitMain "\tfmt.Println(a)")
      ((GenState.init.emitMain "\tfmt.Println(a)").emitTop "\treturn x")
      ⟨"return", ["x"]⟩ (by decide)).1,
   (frame_effect (GenState.init.emitMain "\tfmt.Println(a)")
      ((GenState.init.emitMain "\tfmt.Println(a)").emitTop "\treturn x")
      ⟨"return", ["x"]⟩ (by decide)).2.1⟩

/-- C20: `Compile` returns a text if and only if at least one token of the sequence appends a
line to the main body and no `func` token has exactly one argument that begins with `(`,
whatever the visiting order of the import map; otherwise it faults on an index out of range.
Here a token appends a main-body line exactly when processing it makes `output` longer, and
processing a token faults exactly for such a `func` token, in every state.
In particular it faults on the empty sequence and on every sequence made only of `func`,
`endfunc`, `return`, `struct`, `field`, `endstruct`, `const` and `import` tokens, because the
final assembly reads `output[3]` of a slice that starts with three lines. -/
theorem Compile_returns_iff (order : List String → List String) (ts : List Token) :
    ((CompileWith order ts).isSome = true ↔
        (∃ t ∈ ts, appendsMain t = true) ∧ (∀ t ∈ ts, lonelyReceiver t = false)) ∧
      ((Compile ts).isSome = true ↔
        (∃ t ∈ ts, appendsMain t = true) ∧ (∀ t ∈ ts, lonelyReceiver t = false)) ∧
      Compile [] = none ∧
      (∀ (s s1 : GenState) (t : Token), processToken s t = some s1 →
        (s.output.length < s1.output.length ↔ appendsMain t = true)) ∧
      (∀ (s : GenState) (t : Token), processToken s t = none ↔ lonelyReceiver t = true) ∧
      ((∀ t ∈ ts, t.Command ∈ nonBodyCommands) → CompileWith order ts = none) := by
  refine ⟨CompileWith_isSome_iff order ts, CompileWith_isSome_iff id ts, rfl,
    fun s s1 t h => (processToken_output_length s s1 t h).2,
    fun s t => processToken_none_iff s t, fun hall => ?_⟩
  have hn : ¬ ((CompileWith order ts).isSome = true) := by
    rw [CompileWith_isSome_iff]
    rintro ⟨⟨t, ht, ha⟩, -⟩
    rw [appendsMain_nonBody t (hall t ht)] at ha
    exact absurd ha (by simp)
  cases hc : CompileWith order ts with
  | none => rfl
  | some x => simp [hc] at hn

/-- Witness of `Compile_returns_iff`: `struct A`, `field x int`, `endstruct`, `import os`
holds only tokens that write outside the main body, and `Compile` faults on it. -/
theorem Compile_returns_iff_witness :
    CompileWith id
        [⟨"struct", ["A"]⟩, ⟨"field", ["x", "int"]⟩, ⟨"endstruct", []⟩, ⟨"import", ["os"]⟩] =
      none :=
  (Compile_returns_iff id
    [⟨"struct", ["A"]⟩, ⟨"field", ["x", "int"]⟩, ⟨"endstruct", []⟩, ⟨"import", ["os"]⟩]).2.2.2.2.2
    (by decide)

end Skidlang
